import Mathlib

/-!
# ThreadPool (src/Main.cpp): interleaving model and verification

The program is a fixed pool of worker threads that drain a bounded queue which
the main thread fills, under a spin lock built on `atomic_flag`.

The embedding is a small-step machine.  Every statement of `Main.cpp` that
touches shared state (`queueMutex.flag`, `taskQueue`, `stop`,
`totalProcessedTasks`, `logFile`) is one step of the thread executing it, and
an interleaving is a list of thread identifiers (a schedule).  Sleeping only
passes time, so a sleep is folded into the step before it.

Modelling conventions:
* `atomic_flag::test_and_set` and `clear` are single steps (sequentially
  consistent interleaving semantics); the plain `bool stop` is read and
  written in single steps as well.
* `std::queue<Task>` is the list of its elements, front first.
* `front()` / `pop()` on an empty queue are undefined behaviour in C++; the
  machine records it in the `fault` flag, which is proved never to be raised.
* `totalProcessedTasks` (`atomic<int>`) and `int remainingTasks` are natural
  numbers: they count tasks of a `vector<Task>` and stay far below `2^31`.
* Wall-clock time (`startTime`, `endTime`, sleep durations) is not modelled;
  `cout` receives the same lines as `logFile` and is not duplicated.
-/

namespace ThreadPool

/-! # Part 1: definitions -/

/-- The `Task` struct of Main.cpp, lines 12-16. -/
structure Task where
  id : Int
  arrival_time : Int
  execution_time : Int
  deriving DecidableEq, Repr

/-- Lines written to `logFile`: the two per-task lines of the worker
(Main.cpp 71, 74) and the block of `generateFinalReport` (103-107). -/
inductive LogLine where
  | executing (worker : Nat) (id : Int)
  | completed (id : Int)
  | finalReport (processed : Nat) (remaining : Nat)
  deriving DecidableEq, Repr

/-- Program counter of one worker thread (the lambda of Main.cpp 56-78).
Each constructor names the statement the worker executes next. -/
inductive WPc where
  /-- line 59: `queueMutex.lock()` (one `test_and_set`, retried after 1 ms) -/
  | lock
  /-- line 60: `if (!taskQueue.empty())`, lock held -/
  | test
  /-- line 61: `task = taskQueue.front()`, lock held -/
  | front
  /-- line 62: `taskQueue.pop()`, lock held, `task` already copied -/
  | pop (task : Task)
  /-- line 69: `queueMutex.unlock()` after a successful pop -/
  | unlockTask (task : Task)
  /-- lines 71-72: the "executing Task" line -/
  | start (task : Task)
  /-- lines 73-75: sleep for `execution_time`, then the "completed" line -/
  | finish (task : Task)
  /-- line 76: `totalProcessedTasks++` -/
  | count
  /-- line 64: `queueMutex.unlock()` in the empty branch -/
  | unlockEmpty
  /-- lines 65-67: `if (stop) return;` else sleep 1 ms and `continue` -/
  | readStop
  /-- the lambda has returned -/
  | stopped
  deriving DecidableEq, Repr

/-- Program counter of the main thread from the feeding loop of
`simulateExecution` (Main.cpp 162-165) through `~ThreadPool` (110-121). -/
inductive MPc where
  /-- line 162: loop head over `tasks`; line 163 sleeps for `arrival_time` -/
  | feed (rest : List Task)
  /-- line 84: `queueMutex.lock()` inside `enqueueTask(task)` -/
  | enqLock (task : Task) (rest : List Task)
  /-- line 85: `if (taskQueue.size() < maxQueueSize)`, lock held -/
  | enqCheck (task : Task) (rest : List Task)
  /-- line 86: `taskQueue.push(task)`, lock held -/
  | enqPush (task : Task) (rest : List Task)
  /-- lines 87-88: `queueMutex.unlock(); break;` -/
  | enqUnlockOk (rest : List Task)
  /-- lines 90-91: `queueMutex.unlock();` sleep 1 ms, next attempt -/
  | enqUnlockFull (task : Task) (rest : List Task)
  /-- line 111: `stop = true` -/
  | setStop
  /-- lines 112-116: `join` of worker `i` (blocks until it has returned) -/
  | join (i : Nat)
  /-- line 99: `queueMutex.lock()` in `generateFinalReport` -/
  | repLock
  /-- line 100: `int remainingTasks = taskQueue.size()`, lock held -/
  | repSize
  /-- line 101: `queueMutex.unlock()` -/
  | repUnlock (remaining : Nat)
  /-- lines 103-107: the final report is written -/
  | repWrite (remaining : Nat)
  /-- lines 118-121: log closed, destructor finished -/
  | done
  deriving DecidableEq, Repr

/-- Thread identifiers: the main thread and the workers by index in
`workers`. -/
inductive Tid where
  | main
  | worker (i : Nat)
  deriving DecidableEq, Repr

/-- The shared state of a `ThreadPool` object together with the program
counters of its threads. -/
structure State where
  /-- `taskQueue`, front first -/
  queue : List Task
  /-- `stop` -/
  stop : Bool
  /-- `queueMutex.flag` -/
  flag : Bool
  /-- `totalProcessedTasks` -/
  totalProcessedTasks : Nat
  /-- one program counter per element of `workers` -/
  workers : List WPc
  /-- program counter of the main thread -/
  main : MPc
  /-- contents of `logFile`, oldest line first -/
  log : List LogLine
  /-- raised when `front()` or `pop()` runs on an empty queue -/
  fault : Bool
  deriving DecidableEq, Repr

/-- State right after the constructor (Main.cpp 46-80) has spawned
`num_threads` workers and `simulateExecution` has read `tasks`. -/
def init (num_threads : Nat) (tasks : List Task) : State :=
  { queue := [], stop := false, flag := false, totalProcessedTasks := 0,
    workers := List.replicate num_threads WPc.lock, main := MPc.feed tasks,
    log := [], fault := false }

/-- One step of worker `i` whose program counter is `pc`. -/
def stepWorker (s : State) (i : Nat) (pc : WPc) : State :=
  match pc with
  | WPc.lock =>
      if s.flag then s
      else { s with flag := true, workers := s.workers.set i WPc.test }
  | WPc.test =>
      if s.queue.isEmpty then { s with workers := s.workers.set i WPc.unlockEmpty }
      else { s with workers := s.workers.set i WPc.front }
  | WPc.front =>
      match s.queue with
      | [] => { s with fault := true }
      | t :: _ => { s with workers := s.workers.set i (WPc.pop t) }
  | WPc.pop t =>
      match s.queue with
      | [] => { s with fault := true }
      | _ :: q => { s with queue := q, workers := s.workers.set i (WPc.unlockTask t) }
  | WPc.unlockTask t =>
      { s with flag := false, workers := s.workers.set i (WPc.start t) }
  | WPc.start t =>
      { s with log := s.log ++ [LogLine.executing i t.id],
               workers := s.workers.set i (WPc.finish t) }
  | WPc.finish t =>
      { s with log := s.log ++ [LogLine.completed t.id],
               workers := s.workers.set i WPc.count }
  | WPc.count =>
      { s with totalProcessedTasks := s.totalProcessedTasks + 1,
               workers := s.workers.set i WPc.lock }
  | WPc.unlockEmpty =>
      { s with flag := false, workers := s.workers.set i WPc.readStop }
  | WPc.readStop =>
      if s.stop then { s with workers := s.workers.set i WPc.stopped }
      else { s with workers := s.workers.set i WPc.lock }
  | WPc.stopped => s

/-- One step of the main thread; `maxQueueSize` is the capacity given to the
constructor. -/
def stepMain (maxQueueSize : Nat) (s : State) : State :=
  match s.main with
  | MPc.feed [] => { s with main := MPc.setStop }
  | MPc.feed (t :: rest) => { s with main := MPc.enqLock t rest }
  | MPc.enqLock t rest =>
      if s.flag then s else { s with flag := true, main := MPc.enqCheck t rest }
  | MPc.enqCheck t rest =>
      if s.queue.length < maxQueueSize then { s with main := MPc.enqPush t rest }
      else { s with main := MPc.enqUnlockFull t rest }
  | MPc.enqPush t rest =>
      { s with queue := s.queue ++ [t], main := MPc.enqUnlockOk rest }
  | MPc.enqUnlockOk rest => { s with flag := false, main := MPc.feed rest }
  | MPc.enqUnlockFull t rest => { s with flag := false, main := MPc.enqLock t rest }
  | MPc.setStop => { s with stop := true, main := MPc.join 0 }
  | MPc.join i =>
      if i < s.workers.length then
        (if s.workers[i]? = some WPc.stopped then { s with main := MPc.join (i + 1) } else s)
      else { s with main := MPc.repLock }
  | MPc.repLock =>
      if s.flag then s else { s with flag := true, main := MPc.repSize }
  | MPc.repSize => { s with main := MPc.repUnlock s.queue.length }
  | MPc.repUnlock r => { s with flag := false, main := MPc.repWrite r }
  | MPc.repWrite r =>
      { s with log := s.log ++ [LogLine.finalReport s.totalProcessedTasks r],
               main := MPc.done }
  | MPc.done => s

/-- One step of thread `tid`.  A worker index outside `workers` moves
nothing. -/
def step (maxQueueSize : Nat) (s : State) (tid : Tid) : State :=
  match tid with
  | Tid.main => stepMain maxQueueSize s
  | Tid.worker i =>
      match s.workers[i]? with
      | none => s
      | some pc => stepWorker s i pc

/-- Run a schedule: the threads step in the listed order. -/
def run (maxQueueSize : Nat) (s : State) : List Tid → State
  | [] => s
  | tid :: sched => run maxQueueSize (step maxQueueSize s tid) sched

/-- Final state of the interleaving `sched` of a pool with `num_threads`
workers and capacity `maxQueueSize` fed with `tasks`. -/
def exec (num_threads maxQueueSize : Nat) (tasks : List Task) (sched : List Tid) : State :=
  run maxQueueSize (init num_threads tasks) sched

/-! ## Predicates on program counters -/

/-- Worker statements between the return of `queueMutex.lock()` and the
matching `unlock()` (Main.cpp 60-64 and 69). -/
def WPc.inCS : WPc → Bool
  | WPc.test => true
  | WPc.front => true
  | WPc.pop _ => true
  | WPc.unlockTask _ => true
  | WPc.unlockEmpty => true
  | _ => false

/-- Main-thread statements between the return of `queueMutex.lock()` and the
matching `unlock()` (Main.cpp 85-90 and 100-101). -/
def MPc.inCS : MPc → Bool
  | MPc.enqCheck _ _ => true
  | MPc.enqPush _ _ => true
  | MPc.enqUnlockOk _ => true
  | MPc.enqUnlockFull _ _ => true
  | MPc.repSize => true
  | MPc.repUnlock _ => true
  | _ => false

/-- Thread `tid` is between a return from `lock()` and the matching
`unlock()`. -/
def holdsLock (s : State) : Tid → Bool
  | Tid.main => s.main.inCS
  | Tid.worker i =>
      match s.workers[i]? with
      | some pc => pc.inCS
      | none => false

/-- Worker statements that read or mutate `taskQueue`: `empty()` (60),
`front()` (61), `pop()` (62). -/
def WPc.touchesQueue : WPc → Bool
  | WPc.test => true
  | WPc.front => true
  | WPc.pop _ => true
  | _ => false

/-- Main-thread statements that read or mutate `taskQueue`: `size()` (85),
`push()` (86), `size()` (100). -/
def MPc.touchesQueue : MPc → Bool
  | MPc.enqCheck _ _ => true
  | MPc.enqPush _ _ => true
  | MPc.repSize => true
  | _ => false

/-- The next step of thread `tid` reads or mutates `taskQueue`. -/
def touchesQueue (s : State) : Tid → Bool
  | Tid.main => s.main.touchesQueue
  | Tid.worker i =>
      match s.workers[i]? with
      | some pc => pc.touchesQueue
      | none => false

/-- Number of threads between `lock()` and `unlock()`. -/
def csCount (s : State) : Nat :=
  s.workers.countP WPc.inCS + (if s.main.inCS then 1 else 0)

/-- A worker that has removed a task from the queue and has not yet
incremented `totalProcessedTasks` for it. -/
def WPc.holding : WPc → Bool
  | WPc.unlockTask _ => true
  | WPc.start _ => true
  | WPc.finish _ => true
  | WPc.count => true
  | _ => false

/-- Number of tasks of the list that `simulateExecution` has not yet pushed. -/
def MPc.pending : MPc → Nat
  | MPc.feed rest => rest.length
  | MPc.enqLock _ rest => rest.length + 1
  | MPc.enqCheck _ rest => rest.length + 1
  | MPc.enqPush _ rest => rest.length + 1
  | MPc.enqUnlockOk rest => rest.length
  | MPc.enqUnlockFull _ rest => rest.length + 1
  | _ => 0

/-- Number of tasks popped by a worker and not yet counted. -/
def inFlight (s : State) : Nat := s.workers.countP WPc.holding

/-! ## Mutual exclusion -/

/-- The flag is set exactly when one thread is inside a critical section, and
no two threads ever are. -/
def MutexInv (s : State) : Prop := csCount s = if s.flag then 1 else 0

/-! ## The worker reads the front it then removes -/

/-- A worker about to call `front()` sees a non-empty queue, and a worker
about to call `pop()` holds a copy of the current front element. -/
def FrontInv (s : State) : Prop :=
  ∀ i : Nat, (s.workers[i]? = some WPc.front → s.queue ≠ []) ∧
    (∀ t, s.workers[i]? = some (WPc.pop t) → s.queue.head? = some t)

/-! ## Capacity -/

/-- The queue never exceeds the capacity, and the push of line 86 is only
reached with room for one more element. -/
def CapInv (cap : Nat) (s : State) : Prop :=
  s.queue.length ≤ cap ∧ ∀ t rest, s.main = MPc.enqPush t rest → s.queue.length < cap

/-! ## Conservation of tasks -/

/-- Every task of the list is in exactly one place: not yet pushed, in the
queue, held by a worker, or counted. -/
def ConsInv (N : Nat) (s : State) : Prop :=
  s.totalProcessedTasks + s.queue.length + inFlight s + s.main.pending = N

/-! ## Join and final report -/

/-- Main-thread statements that follow the join loop of the destructor. -/
def MPc.afterJoin : MPc → Bool
  | MPc.repLock => true
  | MPc.repSize => true
  | MPc.repUnlock _ => true
  | MPc.repWrite _ => true
  | MPc.done => true
  | _ => false

/-- Workers already joined have returned, and after the join loop all have. -/
def JoinInv (s : State) : Prop :=
  (∀ i, s.main = MPc.join i →
      ∀ j : Nat, j < i → ∀ pc, s.workers[j]? = some pc → pc = WPc.stopped) ∧
  (s.main.afterJoin = true → ∀ pc ∈ s.workers, pc = WPc.stopped)

/-- The value read at line 100 is still the queue length when the report is
written; a final report is in the log only once the destructor has finished,
and it shows the value of `totalProcessedTasks` and the size of `taskQueue`. -/
def ReportInv (s : State) : Prop :=
  (∀ r, (s.main = MPc.repUnlock r ∨ s.main = MPc.repWrite r) → r = s.queue.length) ∧
  (∀ p r, LogLine.finalReport p r ∈ s.log →
      s.main = MPc.done ∧ p = s.totalProcessedTasks ∧ r = s.queue.length)

/-! ## The combined invariant -/

/-- Everything that holds in every reachable state of a pool of capacity
`cap` fed with `N` tasks. -/
structure Inv (cap N : Nat) (s : State) : Prop where
  mutex : MutexInv s
  front : FrontInv s
  capacity : CapInv cap s
  cons : ConsInv N s
  join : JoinInv s
  report : ReportInv s
  noFault : s.fault = false

/-! ## Pushes and pops along a schedule -/

/-- Queue operations observed along a run. -/
inductive Event where
  | pushed (task : Task)
  | popped (task : Task)
  deriving DecidableEq, Repr

/-- The queue operation performed by the next step of `tid`, if any: the
`push` of line 86, or the `pop` of line 62, which hands the worker the `task`
it copied at line 61. -/
def event (s : State) : Tid → Option Event
  | Tid.main =>
      match s.main with
      | MPc.enqPush t _ => some (Event.pushed t)
      | _ => none
  | Tid.worker i =>
      match s.workers[i]? with
      | some (WPc.pop t) =>
          (match s.queue with
           | [] => none
           | _ :: _ => some (Event.popped t))
      | _ => none

/-- The queue operations of a schedule, in the order they occur. -/
def trace (maxQueueSize : Nat) (s : State) : List Tid → List Event
  | [] => []
  | tid :: sched =>
      (event s tid).toList ++ trace maxQueueSize (step maxQueueSize s tid) sched

/-- The tasks pushed, in order. -/
def pushes : List Event → List Task
  | [] => []
  | Event.pushed t :: es => t :: pushes es
  | Event.popped _ :: es => pushes es

/-- The tasks popped, in order. -/
def pops : List Event → List Task
  | [] => []
  | Event.pushed _ :: es => pops es
  | Event.popped t :: es => t :: pops es

/-! ## Start-up: `main`, `readConfig`, `simulateExecution` up to the feeding loop -/

/-- `std::isspace` in the "C" locale, by character code. -/
def isSpace (c : Char) : Bool :=
  c.toNat = 32 || (9 ≤ c.toNat && c.toNat ≤ 13)

/-- Decimal digit, by character code. -/
def isDigit (c : Char) : Bool :=
  48 ≤ c.toNat && c.toNat ≤ 57

/-- Value of a run of decimal digits, most significant first. -/
def digitsValue (ds : List Char) : Nat :=
  ds.foldl (fun acc c => 10 * acc + (c.toNat - 48)) 0

/-- Largest value of `int`. -/
def INT_MAX : Int := 2147483647

/-- Smallest value of `int`. -/
def INT_MIN : Int := -2147483648

/-- Result of one `ss >> x` for an `int x` on a stream that is still good. -/
inductive Extract where
  /-- a number was read and stored; the stream continues at `rest` -/
  | ok (v : Int) (rest : List Char)
  /-- the field is not a number (0 is stored) or out of range (the nearest
  bound is stored); `failbit` is set -/
  | failStored (v : Int)
  /-- end of stream met while skipping white space: `failbit` is set and the
  operand is not written -/
  | failUntouched
  deriving DecidableEq, Repr

/-- The formatted input `ss >> x` for `int x` (Main.cpp 157): skip white
space, read an optional sign and decimal digits. -/
def extractInt (cs : List Char) : Extract :=
  match cs.dropWhile isSpace with
  | [] => Extract.failUntouched
  | c :: rest =>
      let neg : Bool := c.toNat = 45
      let body : List Char := if c.toNat = 45 || c.toNat = 43 then rest else c :: rest
      let ds := body.takeWhile isDigit
      if ds.isEmpty then Extract.failStored 0
      else
        let v : Int := if neg then -(digitsValue ds : Int) else (digitsValue ds : Int)
        if v > INT_MAX then Extract.failStored INT_MAX
        else if v < INT_MIN then Extract.failStored INT_MIN
        else Extract.ok v (body.dropWhile isDigit)

/-- Lines 155-157 on one line of the file: the three chained extractions into
the uninitialised local `task`, whose indeterminate contents are `junk`.
Once `failbit` is set the later extractions write nothing.  The flag tells
whether all three extractions succeeded. -/
def parseLine (junk : Task) (line : List Char) : Task × Bool :=
  match extractInt line with
  | Extract.failUntouched => (junk, false)
  | Extract.failStored v1 => ({ junk with id := v1 }, false)
  | Extract.ok v1 r1 =>
      match extractInt r1 with
      | Extract.failUntouched => ({ junk with id := v1 }, false)
      | Extract.failStored v2 => ({ junk with id := v1, arrival_time := v2 }, false)
      | Extract.ok v2 r2 =>
          match extractInt r2 with
          | Extract.failUntouched => ({ junk with id := v1, arrival_time := v2 }, false)
          | Extract.failStored v3 =>
              ({ id := v1, arrival_time := v2, execution_time := v3 }, false)
          | Extract.ok v3 _ => ({ id := v1, arrival_time := v2, execution_time := v3 }, true)

/-- The reading loop of `simulateExecution` (Main.cpp 154-159) from line
number `k` on: every line read by `getline` is parsed and the resulting
`task` is pushed onto `tasks`, whatever the state of the stream. -/
def readTasksFrom (junk : Nat → Task) (k : Nat) : List (List Char) → List Task
  | [] => []
  | line :: lines => (parseLine (junk k) line).1 :: readTasksFrom junk (k + 1) lines

/-- The task list built by `simulateExecution` from the lines of the file;
`junk k` is the indeterminate initial content of `task` in iteration `k`. -/
def readTasks (junk : Nat → Task) (lines : List (List Char)) : List Task :=
  readTasksFrom junk 0 lines

/-- What the program finds when it opens its files. -/
structure Files where
  /-- values left in `numThreads` and `maxQueueSize` by `readConfig` (as
  converted to `size_t` at the constructor call), or `none` when config.txt
  cannot be opened -/
  config : Option (Nat × Nat)
  /-- lines of the task file, or `none` when it cannot be opened -/
  taskFile : Option (List (List Char))
  /-- whether the log file "log_" + inputFile can be opened for writing -/
  logOpens : Bool

/-- How `simulateExecution` leaves its start-up phase. -/
inductive SimStart where
  /-- line 146: early `return` because the task file did not open -/
  | returned
  /-- line 50: `exit(1)` in the constructor because the log did not open -/
  | exited (status : Nat)
  /-- the pool is constructed and fed with the tasks read -/
  | pool (num_threads maxQueueSize : Nat) (tasks : List Task)
  deriving DecidableEq, Repr

/-- Lines 142-160 of `simulateExecution`. -/
def simulateExecution (fs : Files) (junk : Nat → Task) (num_threads maxQueueSize : Nat) :
    SimStart :=
  match fs.taskFile with
  | none => SimStart.returned
  | some lines =>
      if fs.logOpens then SimStart.pool num_threads maxQueueSize (readTasks junk lines)
      else SimStart.exited 1

/-- Exit status of the process (`main`, Main.cpp 168-182) for `argc`
command-line words.  When the pool runs, the status is that of line 181,
reached once the destructor has completed. -/
def mainStatus (argc : Nat) (fs : Files) (junk : Nat → Task) : Nat :=
  if argc ≠ 2 then 1
  else
    match fs.config with
    | none => 1
    | some (numThreads, maxQueueSize) =>
        match simulateExecution fs junk numThreads maxQueueSize with
        | SimStart.returned => 0
        | SimStart.exited status => status
        | SimStart.pool _ _ _ => 0

/-! ## The record format of the task source, as the specification words it -/

/-- Character of a decimal digit. -/
def digitChar (d : Fin 10) : Char := Char.ofNat (48 + d.val)

/-- Value of a string of decimal digits, most significant first, by place
value. -/
def decimalValue : List (Fin 10) → Nat
  | [] => 0
  | d :: ds => d.val * 10 ^ ds.length + decimalValue ds

/-- An integer as it is written in a record of the task source: an optional
minus sign followed by one or more decimal digits. -/
structure SpecInt where
  neg : Bool
  first : Fin 10
  more : List (Fin 10)
  deriving DecidableEq, Repr

/-- The integer a written integer denotes. -/
def SpecInt.value (n : SpecInt) : Int :=
  if n.neg then -(decimalValue (n.first :: n.more) : Int)
  else (decimalValue (n.first :: n.more) : Int)

/-- The characters of a written integer. -/
def SpecInt.text (n : SpecInt) : List Char :=
  (if n.neg then [Char.ofNat 45] else []) ++ (n.first :: n.more).map digitChar

/-- The written integer denotes a value of the type `int` of the fields of
`Task`. -/
def SpecInt.fitsInt (n : SpecInt) : Bool :=
  decide (INT_MIN ≤ n.value) && decide (n.value ≤ INT_MAX)

/-- White space between the fields of a record: blanks and tabs only. -/
def isBlankRun (g : List Char) : Bool :=
  g.all (fun c => decide (c = Char.ofNat 32) || decide (c = Char.ofNat 9))

/-- A record of the task source as the specification describes it: "three
whitespace-separated integers: id arrival_delay execution_duration", with
optional white space before the first and after the last. -/
structure SpecRecord where
  lead : List Char
  id : SpecInt
  gap1 : List Char
  arrival_delay : SpecInt
  gap2 : List Char
  execution_duration : SpecInt
  trail : List Char
  deriving DecidableEq, Repr

/-- The record is well formed: the separators are non-empty white space, the
margins are white space, and the three integers fit the fields of `Task`. -/
def SpecRecord.wellFormed (r : SpecRecord) : Bool :=
  isBlankRun r.lead && isBlankRun r.gap1 && !r.gap1.isEmpty &&
    isBlankRun r.gap2 && !r.gap2.isEmpty && isBlankRun r.trail &&
    r.id.fitsInt && r.arrival_delay.fitsInt && r.execution_duration.fitsInt

/-- The line of the file that holds the record. -/
def SpecRecord.text (r : SpecRecord) : List Char :=
  r.lead ++ (r.id.text ++ (r.gap1 ++ (r.arrival_delay.text ++
    (r.gap2 ++ (r.execution_duration.text ++ r.trail)))))

/-- The Task the record describes. -/
def SpecRecord.task (r : SpecRecord) : Task :=
  { id := r.id.value, arrival_time := r.arrival_delay.value,
    execution_time := r.execution_duration.value }

/-- No decimal digit at the head of the list. -/
def NoDigitHead (rest : List Char) : Prop := ∀ c ∈ rest.head?, isDigit c = false

/-! # Part 2: theorems -/

/-! ## List helpers -/

theorem countP_set_some {α : Type} (p : α → Bool) (l : List α) (i : Nat) (a b : α)
    (h : l[i]? = some a) :
    (l.set i b).countP p + (if p a then 1 else 0)
      = l.countP p + (if p b then 1 else 0) := by
  induction l generalizing i with
  | nil => simp at h
  | cons x l ih =>
    cases i with
    | zero =>
      simp at h
      subst h
      simp [List.countP_cons]
      omega
    | succ i =>
      simp at h
      have := ih i h
      simp [List.countP_cons]
      omega

theorem countP_pos_of_getElem? {α : Type} (p : α → Bool) (l : List α) (i : Nat) (a : α)
    (h : l[i]? = some a) (hp : p a = true) : 1 ≤ l.countP p := by
  have hm : a ∈ l := List.getElem?_mem h
  exact List.countP_pos_iff.mpr ⟨a, hm, hp⟩

theorem two_le_countP {α : Type} (p : α → Bool) (l : List α) (i j : Nat) (a b : α)
    (hij : i ≠ j) (hi : l[i]? = some a) (hj : l[j]? = some b)
    (ha : p a = true) (hb : p b = true) : 2 ≤ l.countP p := by
  induction l generalizing i j with
  | nil => simp at hi
  | cons x l ih =>
    cases i with
    | zero =>
      cases j with
      | zero => exact absurd rfl hij
      | succ j =>
        simp at hi hj
        subst hi
        have := countP_pos_of_getElem? p l j b hj hb
        rw [List.countP_cons, if_pos ha]
        omega
    | succ i =>
      cases j with
      | zero =>
        simp at hi hj
        subst hj
        have := countP_pos_of_getElem? p l i a hi ha
        rw [List.countP_cons, if_pos hb]
        omega
      | succ j =>
        simp at hi hj
        have := ih i j (fun h => hij (by rw [h])) hi hj
        simp [List.countP_cons]
        omega

theorem countP_set_sub {α : Type} (p : α → Bool) (l : List α) (i : Nat) (a b : α)
    (h : l[i]? = some a) :
    (l.set i b).countP p
      = l.countP p + (if p b then 1 else 0) - (if p a then 1 else 0) := by
  have := countP_set_some p l i a b h
  omega

theorem ite_le_countP {α : Type} (p : α → Bool) (l : List α) (i : Nat) (a : α)
    (h : l[i]? = some a) : (if p a then 1 else 0) ≤ l.countP p := by
  by_cases hp : p a = true
  · have := countP_pos_of_getElem? p l i a h hp
    simpa [hp] using this
  · simp [hp]

/-! ## Mutual exclusion -/

theorem mutexInv_init (n : Nat) (tasks : List Task) : MutexInv (init n tasks) := by
  simp [MutexInv, csCount, init, MPc.inCS, List.countP_replicate, WPc.inCS]

theorem mutexInv_stepMain (cap : Nat) (s : State) (h : MutexInv s) :
    MutexInv (stepMain cap s) := by
  unfold MutexInv csCount at *
  unfold stepMain
  split <;> (try split) <;> (try split) <;> simp_all [MPc.inCS] <;> (try split at h) <;> simp_all

theorem mutexInv_stepWorker (s : State) (i : Nat) (pc : WPc)
    (hpc : s.workers[i]? = some pc) (h : MutexInv s) : MutexInv (stepWorker s i pc) := by
  have hle := ite_le_countP WPc.inCS s.workers i pc hpc
  unfold MutexInv csCount at *
  cases pc <;> cases hq : s.queue <;> cases hf : s.flag <;> cases hst : s.stop <;>
    simp only [stepWorker, hq, hf, hst, countP_set_sub WPc.inCS s.workers i _ _ hpc, WPc.inCS,
      List.isEmpty_nil, List.isEmpty_cons, if_true, if_false, Bool.false_eq_true] at h hle ⊢ <;>
    omega

theorem mutexInv_step (cap : Nat) (s : State) (tid : Tid) (h : MutexInv s) :
    MutexInv (step cap s tid) := by
  cases tid with
  | main => exact mutexInv_stepMain cap s h
  | worker i =>
    simp only [step]
    split
    · exact h
    · next pc hpc => exact mutexInv_stepWorker s i pc hpc h

theorem run_append (cap : Nat) (s : State) (xs ys : List Tid) :
    run cap s (xs ++ ys) = run cap (run cap s xs) ys := by
  induction xs generalizing s with
  | nil => rfl
  | cons x xs ih => simp [run, ih]

/-- A property that holds initially and is kept by every step holds after
every schedule. -/
theorem run_induction (P : State → Prop) (cap : Nat)
    (hstep : ∀ s tid, P s → P (step cap s tid)) (s : State) (h : P s) (sched : List Tid) :
    P (run cap s sched) := by
  induction sched generalizing s with
  | nil => exact h
  | cons tid sched ih => exact ih _ (hstep s tid h)

theorem mutexInv_exec (n cap : Nat) (tasks : List Task) (sched : List Tid) :
    MutexInv (exec n cap tasks sched) :=
  run_induction MutexInv cap (fun s tid h => mutexInv_step cap s tid h) _
    (mutexInv_init n tasks) sched

theorem mutex_two_workers (s : State) (h : MutexInv s) (i j : Nat) (a b : WPc)
    (hij : i ≠ j) (hi : s.workers[i]? = some a) (hj : s.workers[j]? = some b)
    (ha : a.inCS = true) (hb : b.inCS = true) : False := by
  have h2 := two_le_countP WPc.inCS s.workers i j a b hij hi hj ha hb
  unfold MutexInv csCount at h
  split at h <;> split at h <;> omega

theorem mutex_main_worker (s : State) (h : MutexInv s) (j : Nat) (b : WPc)
    (hm : s.main.inCS = true) (hj : s.workers[j]? = some b) (hb : b.inCS = true) : False := by
  have h1 := countP_pos_of_getElem? WPc.inCS s.workers j b hj hb
  unfold MutexInv csCount at h
  rw [if_pos hm] at h
  split at h <;> omega

theorem getElem?_set_same {α : Type} (l : List α) (i : Nat) (a b : α)
    (h : l[i]? = some a) : (l.set i b)[i]? = some b := by
  rw [List.getElem?_set_self', h]
  rfl

theorem stepWorker_workers_ne (s : State) (i j : Nat) (pc : WPc) (hij : i ≠ j) :
    (stepWorker s j pc).workers[i]? = s.workers[i]? := by
  have hji : j ≠ i := fun h => hij h.symm
  cases pc <;> cases hq : s.queue <;> cases hf : s.flag <;> cases hst : s.stop <;>
    simp [stepWorker, hq, hf, hst, List.getElem?_set_ne hji]

theorem stepWorker_main (s : State) (j : Nat) (pc : WPc) :
    (stepWorker s j pc).main = s.main := by
  cases pc <;> cases hq : s.queue <;> cases hf : s.flag <;> cases hst : s.stop <;>
    simp [stepWorker, hq, hf, hst]

theorem stepWorker_queue (s : State) (j : Nat) (pc : WPc) :
    (stepWorker s j pc).queue = s.queue ∨
      (∃ t, pc = WPc.pop t ∧ (stepWorker s j pc).queue = s.queue.tail) := by
  cases pc <;> cases hq : s.queue <;> cases hf : s.flag <;> cases hst : s.stop <;>
    simp [stepWorker, hq, hf, hst]

theorem stepMain_workers (cap : Nat) (s : State) : (stepMain cap s).workers = s.workers := by
  unfold stepMain
  split <;> (try split) <;> (try split) <;> rfl

/-! ## The worker reads the front it then removes -/

theorem frontInv_init (n : Nat) (tasks : List Task) : FrontInv (init n tasks) := by
  intro i
  simp only [init]
  constructor
  · intro h
    have := List.getElem?_mem h
    simp [List.mem_replicate] at this
  · intro t h
    have := List.getElem?_mem h
    simp [List.mem_replicate] at this

theorem frontInv_stepMain (cap : Nat) (s : State) (h : FrontInv s) :
    FrontInv (stepMain cap s) := by
  intro i
  have hi := h i
  rw [stepMain_workers]
  unfold stepMain
  split <;> (try split) <;> (try split) <;> (try exact hi)
  -- the push
  obtain ⟨h1, h2⟩ := hi
  refine ⟨fun hw => by simp, fun t hw => ?_⟩
  have := h2 t hw
  cases hq : s.queue with
  | nil => simp [hq] at this
  | cons x q => simpa [hq] using this

theorem frontInv_stepWorker (s : State) (j : Nat) (pc : WPc)
    (hpc : s.workers[j]? = some pc) (hm : MutexInv s) (h : FrontInv s) :
    FrontInv (stepWorker s j pc) := by
  intro i
  by_cases hij : i = j
  · subst hij
    have hi := h i
    rw [hpc] at hi
    have hset := fun b => getElem?_set_same s.workers i pc b hpc
    cases pc <;> cases hq : s.queue <;> cases hf : s.flag <;> cases hst : s.stop <;>
      simp_all [stepWorker]
  · rw [stepWorker_workers_ne s i j pc hij]
    rcases stepWorker_queue s j pc with hq | ⟨t, hpop, _⟩
    · rw [hq]
      exact h i
    · subst hpop
      constructor
      · intro hw
        exact (mutex_two_workers s hm i j _ _ hij hw hpc rfl rfl).elim
      · intro t2 hw
        exact (mutex_two_workers s hm i j _ _ hij hw hpc rfl rfl).elim

theorem frontInv_step (cap : Nat) (s : State) (tid : Tid) (hm : MutexInv s)
    (h : FrontInv s) : FrontInv (step cap s tid) := by
  cases tid with
  | main => exact frontInv_stepMain cap s h
  | worker i =>
    simp only [step]
    split
    · exact h
    · next pc hpc => exact frontInv_stepWorker s i pc hpc hm h

/-! ## Capacity -/

theorem capInv_init (cap n : Nat) (tasks : List Task) : CapInv cap (init n tasks) := by
  simp [CapInv, init]

theorem capInv_stepMain (cap : Nat) (s : State) (h : CapInv cap s) :
    CapInv cap (stepMain cap s) := by
  obtain ⟨h1, h2⟩ := h
  unfold CapInv stepMain
  split <;> (try split) <;> (try split) <;> simp_all
  omega

theorem capInv_stepWorker (cap : Nat) (s : State) (j : Nat) (pc : WPc)
    (h : CapInv cap s) : CapInv cap (stepWorker s j pc) := by
  obtain ⟨h1, h2⟩ := h
  unfold CapInv
  rw [stepWorker_main]
  rcases stepWorker_queue s j pc with hq | ⟨t, _, hq⟩
  · rw [hq]
    exact ⟨h1, h2⟩
  · rw [hq]
    refine ⟨by simp; omega, fun t rest hmn => ?_⟩
    have := h2 t rest hmn
    simp
    omega

theorem capInv_step (cap : Nat) (s : State) (tid : Tid) (h : CapInv cap s) :
    CapInv cap (step cap s tid) := by
  cases tid with
  | main => exact capInv_stepMain cap s h
  | worker i =>
    simp only [step]
    split
    · exact h
    · next pc hpc => exact capInv_stepWorker cap s i pc h

/-! ## Conservation of tasks -/

theorem consInv_init (n : Nat) (tasks : List Task) : ConsInv tasks.length (init n tasks) := by
  simp [ConsInv, init, inFlight, MPc.pending, List.countP_replicate, WPc.holding]

theorem consInv_stepMain (cap N : Nat) (s : State) (h : ConsInv N s) :
    ConsInv N (stepMain cap s) := by
  unfold ConsInv inFlight at *
  unfold stepMain
  split <;> (try split) <;> (try split) <;> simp_all [MPc.pending]
  all_goals omega

theorem consInv_stepWorker (N : Nat) (s : State) (j : Nat) (pc : WPc)
    (hpc : s.workers[j]? = some pc) (h : ConsInv N s) : ConsInv N (stepWorker s j pc) := by
  have hle := ite_le_countP WPc.holding s.workers j pc hpc
  unfold ConsInv inFlight at *
  cases pc <;> cases hq : s.queue <;> cases hf : s.flag <;> cases hst : s.stop <;>
    simp only [stepWorker, hq, hf, hst, countP_set_sub WPc.holding s.workers j _ _ hpc,
      WPc.holding, List.isEmpty_nil, List.isEmpty_cons, if_true, if_false,
      Bool.false_eq_true, List.length_cons, List.length_nil] at h hle ⊢ <;>
    omega

theorem consInv_step (cap N : Nat) (s : State) (tid : Tid) (h : ConsInv N s) :
    ConsInv N (step cap s tid) := by
  cases tid with
  | main => exact consInv_stepMain cap N s h
  | worker i =>
    simp only [step]
    split
    · exact h
    · next pc hpc => exact consInv_stepWorker N s i pc hpc h

/-! ## Join and final report -/

theorem joinInv_init (n : Nat) (tasks : List Task) : JoinInv (init n tasks) := by
  simp [JoinInv, init, MPc.afterJoin]

theorem joinInv_stepMain (cap : Nat) (s : State) (h : JoinInv s) :
    JoinInv (stepMain cap s) := by
  obtain ⟨h1, h2⟩ := h
  unfold JoinInv
  rw [stepMain_workers]
  cases hm : s.main with
  | join i =>
    simp only [stepMain, hm]
    by_cases hi : i < s.workers.length
    · rw [if_pos hi]
      by_cases hw : s.workers[i]? = some WPc.stopped
      · rw [if_pos hw]
        refine ⟨?_, by simp [MPc.afterJoin]⟩
        intro k hk j hj pc hpc
        simp only [MPc.join.injEq] at hk
        subst hk
        by_cases hji : j = i
        · subst hji
          rw [hw] at hpc
          exact (Option.some.inj hpc).symm
        · exact h1 i hm j (by omega) pc hpc
      · rw [if_neg hw]
        exact ⟨fun k hk => h1 k (by simpa [hm] using hk), fun hk => by simp [hm, MPc.afterJoin] at hk⟩
    · rw [if_neg hi]
      refine ⟨by simp, fun _ pc hmem => ?_⟩
      obtain ⟨k, hk⟩ := List.mem_iff_getElem?.mp hmem
      have hlt : k < s.workers.length := by
        by_contra hge
        rw [List.getElem?_eq_none (by omega)] at hk
        exact Option.noConfusion hk
      exact h1 i hm k (by omega) pc hk
  | _ =>
    refine ⟨fun k hk => ?_, fun hk => h2 ?_⟩ <;>
      (unfold stepMain at hk; rw [hm] at hk; (try simp only at hk); (try split at hk)) <;>
      simp_all [MPc.afterJoin]
    all_goals
      subst hk
      intro j hj
      omega

theorem stepWorker_stopped (s : State) (j : Nat) : stepWorker s j WPc.stopped = s := rfl

theorem joinInv_stepWorker (s : State) (j : Nat) (pc : WPc)
    (hpc : s.workers[j]? = some pc) (h : JoinInv s) : JoinInv (stepWorker s j pc) := by
  obtain ⟨h1, h2⟩ := h
  unfold JoinInv
  rw [stepWorker_main]
  constructor
  · intro i hm k hk pc2 hpc2
    by_cases hkj : k = j
    · subst hkj
      have hst := h1 i hm k hk pc hpc
      subst hst
      rw [stepWorker_stopped, hpc] at hpc2
      exact (Option.some.inj hpc2).symm
    · rw [stepWorker_workers_ne s k j pc hkj] at hpc2
      exact h1 i hm k hk pc2 hpc2
  · intro hm
    have hst := h2 hm pc (List.getElem?_mem hpc)
    subst hst
    rw [stepWorker_stopped]
    exact h2 hm

theorem joinInv_step (cap : Nat) (s : State) (tid : Tid) (h : JoinInv s) :
    JoinInv (step cap s tid) := by
  cases tid with
  | main => exact joinInv_stepMain cap s h
  | worker i =>
    simp only [step]
    split
    · exact h
    · next pc hpc => exact joinInv_stepWorker s i pc hpc h

theorem reportInv_init (n : Nat) (tasks : List Task) : ReportInv (init n tasks) := by
  simp [ReportInv, init]

theorem inFlight_eq_zero (s : State) (h : ∀ pc ∈ s.workers, pc = WPc.stopped) :
    inFlight s = 0 := by
  unfold inFlight
  rw [List.countP_eq_zero]
  intro pc hpc
  rw [h pc hpc]
  simp [WPc.holding]

theorem reportInv_stepMain (cap : Nat) (s : State) (h : ReportInv s) :
    ReportInv (stepMain cap s) := by
  obtain ⟨h1, h2⟩ := h
  unfold ReportInv
  cases hm : s.main with
  | repWrite r =>
    simp only [stepMain, hm]
    refine ⟨by simp, fun p r2 hmem => ?_⟩
    rw [List.mem_append] at hmem
    rcases hmem with hmem | hmem
    · have := (h2 p r2 hmem).1
      rw [hm] at this
      exact MPc.noConfusion this
    · simp only [List.mem_singleton, LogLine.finalReport.injEq] at hmem
      obtain ⟨hp, hr⟩ := hmem
      subst hp hr
      exact ⟨trivial, rfl, h1 r2 (Or.inr hm)⟩
  | done =>
    simp only [stepMain, hm]
    exact ⟨fun r hr => by simp at hr, fun p r hmem => ⟨trivial, (h2 p r hmem).2⟩⟩
  | repSize =>
    simp only [stepMain, hm]
    refine ⟨by simp, fun p r hmem => ?_⟩
    have := (h2 p r hmem).1
    rw [hm] at this
    exact MPc.noConfusion this
  | repUnlock r =>
    have hr := h1 r (Or.inl hm)
    simp only [stepMain, hm]
    refine ⟨by simp [hr], fun p r2 hmem => ?_⟩
    have := (h2 p r2 hmem).1
    rw [hm] at this
    exact MPc.noConfusion this
  | _ =>
    have hno : ∀ p r, LogLine.finalReport p r ∉ s.log := by
      intro p r hmem
      have := (h2 p r hmem).1
      rw [hm] at this
      exact MPc.noConfusion this
    unfold stepMain
    rw [hm]
    try simp only
    all_goals (try split)
    all_goals (try split)
    all_goals simp_all

theorem stepWorker_log_report (s : State) (j : Nat) (pc : WPc) (p r : Nat)
    (h : LogLine.finalReport p r ∈ (stepWorker s j pc).log) :
    LogLine.finalReport p r ∈ s.log := by
  cases pc <;> cases hq : s.queue <;> cases hf : s.flag <;> cases hst : s.stop <;>
    simp_all [stepWorker]

theorem reportInv_stepWorker (s : State) (j : Nat) (pc : WPc)
    (hpc : s.workers[j]? = some pc) (hj : JoinInv s) (h : ReportInv s) :
    ReportInv (stepWorker s j pc) := by
  obtain ⟨h1, h2⟩ := h
  have hfrozen : s.main.afterJoin = true → stepWorker s j pc = s := by
    intro haj
    have hst := hj.2 haj pc (List.getElem?_mem hpc)
    subst hst
    rfl
  unfold ReportInv
  rw [stepWorker_main]
  constructor
  · intro r hr
    have haj : s.main.afterJoin = true := by
      rcases hr with hr | hr <;> simp [hr, MPc.afterJoin]
    rw [hfrozen haj]
    exact h1 r hr
  · intro p r hmem
    have hold := h2 p r (stepWorker_log_report s j pc p r hmem)
    have haj : s.main.afterJoin = true := by simp [hold.1, MPc.afterJoin]
    rw [hfrozen haj]
    exact hold

theorem reportInv_step (cap : Nat) (s : State) (tid : Tid) (hj : JoinInv s)
    (h : ReportInv s) : ReportInv (step cap s tid) := by
  cases tid with
  | main => exact reportInv_stepMain cap s h
  | worker i =>
    simp only [step]
    split
    · exact h
    · next pc hpc => exact reportInv_stepWorker s i pc hpc hj h

/-! ## No undefined behaviour -/

theorem stepMain_fault (cap : Nat) (s : State) : (stepMain cap s).fault = s.fault := by
  unfold stepMain
  split <;> (try split) <;> (try split) <;> rfl

theorem stepWorker_fault (s : State) (j : Nat) (pc : WPc)
    (hpc : s.workers[j]? = some pc) (h : FrontInv s) :
    (stepWorker s j pc).fault = s.fault := by
  have hj := h j
  rw [hpc] at hj
  cases pc <;> cases hq : s.queue <;> cases hf : s.flag <;> cases hst : s.stop <;>
    simp_all [stepWorker]

theorem step_fault (cap : Nat) (s : State) (tid : Tid) (h : FrontInv s) :
    (step cap s tid).fault = s.fault := by
  cases tid with
  | main => exact stepMain_fault cap s
  | worker i =>
    simp only [step]
    split
    · rfl
    · next pc hpc => exact stepWorker_fault s i pc hpc h

/-! ## The combined invariant -/

theorem inv_init (n cap : Nat) (tasks : List Task) : Inv cap tasks.length (init n tasks) :=
  { mutex := mutexInv_init n tasks
    front := frontInv_init n tasks
    capacity := capInv_init cap n tasks
    cons := consInv_init n tasks
    join := joinInv_init n tasks
    report := reportInv_init n tasks
    noFault := rfl }

theorem inv_step (cap N : Nat) (s : State) (tid : Tid) (h : Inv cap N s) :
    Inv cap N (step cap s tid) :=
  { mutex := mutexInv_step cap s tid h.mutex
    front := frontInv_step cap s tid h.mutex h.front
    capacity := capInv_step cap s tid h.capacity
    cons := consInv_step cap N s tid h.cons
    join := joinInv_step cap s tid h.join
    report := reportInv_step cap s tid h.join h.report
    noFault := by rw [step_fault cap s tid h.front]; exact h.noFault }

theorem inv_run (cap N : Nat) (s : State) (h : Inv cap N s) (sched : List Tid) :
    Inv cap N (run cap s sched) :=
  run_induction (Inv cap N) cap (fun s tid h => inv_step cap N s tid h) s h sched

theorem inv_exec (n cap : Nat) (tasks : List Task) (sched : List Tid) :
    Inv cap tasks.length (exec n cap tasks sched) :=
  inv_run cap tasks.length _ (inv_init n cap tasks) sched

/-! ## Pushes and pops along a schedule -/

theorem step_event_queue (cap : Nat) (s : State) (tid : Tid) (h : FrontInv s) :
    (event s tid = none ∧ (step cap s tid).queue = s.queue) ∨
    (∃ t, event s tid = some (Event.pushed t) ∧ (step cap s tid).queue = s.queue ++ [t]) ∨
    (∃ t, event s tid = some (Event.popped t) ∧ s.queue = t :: (step cap s tid).queue) := by
  cases tid with
  | main =>
    simp only [event, step]
    unfold stepMain
    split <;> (try split) <;> (try split) <;> simp_all
    split <;> rfl
  | worker i =>
    simp only [event, step]
    cases hpc : s.workers[i]? with
    | none => simp
    | some pc =>
      have hi := h i
      rw [hpc] at hi
      cases pc <;> cases hq : s.queue <;> cases hf : s.flag <;> cases hst : s.stop <;>
        simp_all [stepWorker]

theorem fifo_run (cap : Nat) (s : State) (hm : MutexInv s) (h : FrontInv s)
    (sched : List Tid) :
    s.queue ++ pushes (trace cap s sched)
      = pops (trace cap s sched) ++ (run cap s sched).queue := by
  induction sched generalizing s with
  | nil => simp [trace, pushes, pops, run]
  | cons tid sched ih =>
    have ih2 := ih (step cap s tid) (mutexInv_step cap s tid hm) (frontInv_step cap s tid hm h)
    simp only [trace, run]
    rcases step_event_queue cap s tid h with ⟨he, hq⟩ | ⟨t, he, hq⟩ | ⟨t, he, hq⟩
    · rw [he, ← hq]
      simpa using ih2
    · rw [he]
      rw [hq] at ih2
      simpa [pushes, pops] using ih2
    · rw [he, hq]
      simp [pushes, pops, ← ih2]

/-- Worker steps taken while the main thread is inside its critical section
change neither the queue nor the program counter of the main thread. -/
theorem run_workers_locked (cap N : Nat) (s : State) (h : Inv cap N s)
    (hcs : s.main.inCS = true) (ws : List Nat) :
    (run cap s (ws.map Tid.worker)).queue = s.queue ∧
      (run cap s (ws.map Tid.worker)).main = s.main := by
  induction ws generalizing s with
  | nil => exact ⟨rfl, rfl⟩
  | cons w ws ih =>
    simp only [List.map_cons, run]
    have hinv := inv_step cap N s (Tid.worker w) h
    have hstep : (step cap s (Tid.worker w)).queue = s.queue ∧
        (step cap s (Tid.worker w)).main = s.main := by
      simp only [step]
      cases hpc : s.workers[w]? with
      | none => exact ⟨rfl, rfl⟩
      | some pc =>
        refine ⟨?_, stepWorker_main s w pc⟩
        rcases stepWorker_queue s w pc with hq | ⟨t, hpop, _⟩
        · exact hq
        · subst hpop
          exact (mutex_main_worker s h.mutex w _ hcs hpc rfl).elim
    obtain ⟨ihq, ihm⟩ := ih (step cap s (Tid.worker w)) hinv (by rw [hstep.2]; exact hcs)
    exact ⟨ihq.trans hstep.1, ihm.trans hstep.2⟩

/-- Number of `popped` events equals the growth of counted plus held tasks. -/
theorem pops_count_step (cap : Nat) (s : State) (tid : Tid) :
    (pops (event s tid).toList).length + s.totalProcessedTasks + inFlight s
      = (step cap s tid).totalProcessedTasks + inFlight (step cap s tid) := by
  cases tid with
  | main =>
    have hw := stepMain_workers cap s
    have hp : (stepMain cap s).totalProcessedTasks = s.totalProcessedTasks := by
      unfold stepMain
      split <;> (try split) <;> (try split) <;> rfl
    have he : pops (event s Tid.main).toList = [] := by
      simp only [event]
      split <;> rfl
    simp only [step, inFlight, hw, hp, he, List.length_nil]
    omega
  | worker j =>
    simp only [step, event]
    cases hpc : s.workers[j]? with
    | none => simp [pops]
    | some pc =>
      have hle := ite_le_countP WPc.holding s.workers j pc hpc
      unfold inFlight
      cases pc <;> cases hq : s.queue <;> cases hf : s.flag <;> cases hst : s.stop <;>
        simp only [stepWorker, hq, hf, hst, countP_set_sub WPc.holding s.workers j _ _ hpc,
          WPc.holding, List.isEmpty_nil, List.isEmpty_cons, if_true, if_false,
          Bool.false_eq_true, Option.toList, pops, List.length_cons, List.length_nil]
          at hle ⊢ <;>
        omega

theorem pops_append (xs ys : List Event) : pops (xs ++ ys) = pops xs ++ pops ys := by
  induction xs with
  | nil => rfl
  | cons e xs ih => cases e <;> simp [pops, ih]

theorem pops_count_run (cap : Nat) (s : State) (sched : List Tid) :
    (pops (trace cap s sched)).length + s.totalProcessedTasks + inFlight s
      = (run cap s sched).totalProcessedTasks + inFlight (run cap s sched) := by
  induction sched generalizing s with
  | nil => simp [trace, pops, run]
  | cons tid sched ih =>
    have h1 := pops_count_step cap s tid
    have h2 := ih (step cap s tid)
    simp only [trace, run, pops_append, List.length_append]
    omega

/-! ## Steps of the other threads during a critical section -/

theorem stepMain_queue (cap : Nat) (s : State) :
    (stepMain cap s).queue = s.queue ∨ ∃ t rest, s.main = MPc.enqPush t rest := by
  unfold stepMain
  split <;> (try split) <;> (try split) <;> simp_all

/-- Steps of the other threads taken while worker `i` is inside its critical
section change neither the queue nor the program counter of worker `i`. -/
theorem run_others_locked (cap N : Nat) (i : Nat) (pc : WPc) (hcs : pc.inCS = true)
    (others : List Tid) (hne : ∀ tid ∈ others, tid ≠ Tid.worker i)
    (s : State) (h : Inv cap N s) (hpc : s.workers[i]? = some pc) :
    (run cap s others).queue = s.queue ∧ (run cap s others).workers[i]? = some pc := by
  induction others generalizing s with
  | nil => exact ⟨rfl, hpc⟩
  | cons tid others ih =>
    simp only [run]
    have hinv := inv_step cap N s tid h
    have hstep : (step cap s tid).queue = s.queue ∧ (step cap s tid).workers[i]? = some pc := by
      cases tid with
      | main =>
        simp only [step]
        refine ⟨?_, by rw [stepMain_workers]; exact hpc⟩
        rcases stepMain_queue cap s with hq | ⟨t, rest, hm⟩
        · exact hq
        · exact (mutex_main_worker s h.mutex i pc (by simp [hm, MPc.inCS]) hpc hcs).elim
      | worker j =>
        have hji : j ≠ i := fun e => hne (Tid.worker j) (List.mem_cons_self _ _) (by rw [e])
        simp only [step]
        cases hj : s.workers[j]? with
        | none => exact ⟨rfl, hpc⟩
        | some pcj =>
          refine ⟨?_, by rw [stepWorker_workers_ne s i j pcj (fun e => hji e.symm)]; exact hpc⟩
          rcases stepWorker_queue s j pcj with hq | ⟨t, hpop, _⟩
          · exact hq
          · subst hpop
            exact (mutex_two_workers s h.mutex j i _ pc hji hj hpc rfl hcs).elim
    obtain ⟨ihq, ihw⟩ := ih (fun tid hmem => hne tid (List.mem_cons_of_mem _ hmem))
      (step cap s tid) hinv hstep.2
    exact ⟨ihq.trans hstep.1, ihw⟩

theorem step_worker_eq (cap : Nat) (s : State) (i : Nat) (pc : WPc)
    (hpc : s.workers[i]? = some pc) : step cap s (Tid.worker i) = stepWorker s i pc := by
  simp only [step, hpc]

/-- The pop section (Main.cpp 60-62) of worker `i` on a non-empty queue,
interleaved with arbitrary steps of the other threads, removes the front
element and leaves it in `task`. -/
theorem pop_section_nonempty (cap N : Nat) (s : State) (h : Inv cap N s) (i : Nat)
    (t : Task) (q : List Task) (o1 o2 : List Tid)
    (h1 : ∀ tid ∈ o1, tid ≠ Tid.worker i) (h2 : ∀ tid ∈ o2, tid ≠ Tid.worker i)
    (hpc : s.workers[i]? = some WPc.test) (hq : s.queue = t :: q) :
    (run cap s (Tid.worker i :: (o1 ++ Tid.worker i :: (o2 ++ [Tid.worker i])))).queue = q ∧
    (run cap s (Tid.worker i :: (o1 ++ Tid.worker i :: (o2 ++ [Tid.worker i])))).workers[i]?
      = some (WPc.unlockTask t) := by
  have hrun : run cap s (Tid.worker i :: (o1 ++ Tid.worker i :: (o2 ++ [Tid.worker i])))
      = step cap (run cap (step cap (run cap (step cap s (Tid.worker i)) o1) (Tid.worker i)) o2)
          (Tid.worker i) := by
    simp only [run, run_append]
  rw [hrun]
  clear hrun
  -- line 60
  have e1 : step cap s (Tid.worker i)
      = { s with workers := s.workers.set i WPc.front } := by
    rw [step_worker_eq cap s i _ hpc]
    simp [stepWorker, hq]
  have inv1 := inv_step cap N s (Tid.worker i) h
  have pc1 : (step cap s (Tid.worker i)).workers[i]? = some WPc.front := by
    rw [e1]
    exact getElem?_set_same s.workers i _ _ hpc
  have q1 : (step cap s (Tid.worker i)).queue = t :: q := by rw [e1]; exact hq
  -- the others move
  obtain ⟨q2, pc2⟩ := run_others_locked cap N i WPc.front rfl o1 h1 _ inv1 pc1
  have inv2 := inv_run cap N _ inv1 o1
  rw [q1] at q2
  -- line 61
  generalize run cap (step cap s (Tid.worker i)) o1 = s2 at q2 pc2 inv2 ⊢
  have e3 : step cap s2 (Tid.worker i)
      = { s2 with workers := s2.workers.set i (WPc.pop t) } := by
    rw [step_worker_eq cap s2 i _ pc2]
    simp [stepWorker, q2]
  have inv3 := inv_step cap N s2 (Tid.worker i) inv2
  have pc3 : (step cap s2 (Tid.worker i)).workers[i]? = some (WPc.pop t) := by
    rw [e3]
    exact getElem?_set_same s2.workers i _ _ pc2
  have q3 : (step cap s2 (Tid.worker i)).queue = t :: q := by rw [e3]; exact q2
  -- the others move
  obtain ⟨q4, pc4⟩ := run_others_locked cap N i (WPc.pop t) rfl o2 h2 _ inv3 pc3
  rw [q3] at q4
  generalize run cap (step cap s2 (Tid.worker i)) o2 = s4 at q4 pc4 ⊢
  -- line 62
  have e5 : step cap s4 (Tid.worker i)
      = { s4 with queue := q, workers := s4.workers.set i (WPc.unlockTask t) } := by
    rw [step_worker_eq cap s4 i _ pc4]
    simp [stepWorker, q4]
  rw [e5]
  exact ⟨rfl, getElem?_set_same s4.workers i _ _ pc4⟩

/-! ## The claims -/

/-- C1 (capacity invariant): in every reachable state of the pool, for any
number of workers, any capacity, any task list and any interleaving of the
main thread and the workers, `taskQueue.size() <= maxQueueSize`. -/
theorem capacity_invariant (num_threads maxQueueSize : Nat) (tasks : List Task)
    (sched : List Tid) :
    (exec num_threads maxQueueSize tasks sched).queue.length ≤ maxQueueSize :=
  (inv_exec num_threads maxQueueSize tasks sched).capacity.1

/-- C2 (FIFO): in every reachable state, (a) the pop section of a worker on
a non-empty queue, however the other threads are interleaved with it, removes
the front element and hands it to the worker; (b) on an empty queue the
emptiness test removes nothing and sends the worker to the empty branch;
(c) along every interleaving the tasks popped, in the order of the pop steps
across all workers, are a prefix of the tasks pushed, and what was pushed and
not popped is exactly the queue. -/
theorem fifo_order (num_threads maxQueueSize : Nat) (tasks : List Task) (sched : List Tid) :
    (∀ (i : Nat) (t : Task) (q : List Task) (o1 o2 : List Tid),
        (∀ tid ∈ o1, tid ≠ Tid.worker i) → (∀ tid ∈ o2, tid ≠ Tid.worker i) →
        (exec num_threads maxQueueSize tasks sched).workers[i]? = some WPc.test →
        (exec num_threads maxQueueSize tasks sched).queue = t :: q →
        (run maxQueueSize (exec num_threads maxQueueSize tasks sched)
            (Tid.worker i :: (o1 ++ Tid.worker i :: (o2 ++ [Tid.worker i])))).queue = q ∧
        (run maxQueueSize (exec num_threads maxQueueSize tasks sched)
            (Tid.worker i :: (o1 ++ Tid.worker i :: (o2 ++ [Tid.worker i])))).workers[i]?
          = some (WPc.unlockTask t)) ∧
    (∀ i : Nat,
        (exec num_threads maxQueueSize tasks sched).workers[i]? = some WPc.test →
        (exec num_threads maxQueueSize tasks sched).queue = [] →
        (step maxQueueSize (exec num_threads maxQueueSize tasks sched) (Tid.worker i)).queue = [] ∧
        (step maxQueueSize (exec num_threads maxQueueSize tasks sched)
            (Tid.worker i)).workers[i]? = some WPc.unlockEmpty) ∧
    pops (trace maxQueueSize (init num_threads tasks) sched)
      <+: pushes (trace maxQueueSize (init num_threads tasks) sched) ∧
    pushes (trace maxQueueSize (init num_threads tasks) sched)
      = pops (trace maxQueueSize (init num_threads tasks) sched)
          ++ (exec num_threads maxQueueSize tasks sched).queue := by
  have hinv := inv_exec num_threads maxQueueSize tasks sched
  have hfifo := fifo_run maxQueueSize (init num_threads tasks)
    (mutexInv_init num_threads tasks) (frontInv_init num_threads tasks) sched
  have hpush : pushes (trace maxQueueSize (init num_threads tasks) sched)
      = pops (trace maxQueueSize (init num_threads tasks) sched)
          ++ (exec num_threads maxQueueSize tasks sched).queue := by
    simpa [init, exec] using hfifo
  refine ⟨?_, ?_, ?_, hpush⟩
  · intro i t q o1 o2 h1 h2 hpc hq
    exact pop_section_nonempty maxQueueSize tasks.length _ hinv i t q o1 o2 h1 h2 hpc hq
  · intro i hpc hq
    rw [step_worker_eq maxQueueSize _ i _ hpc]
    simp only [stepWorker, hq, List.isEmpty_nil, if_true]
    exact ⟨trivial, getElem?_set_same _ i _ _ hpc⟩
  · rw [hpush]
    exact List.prefix_append _ _

/-- C3 (one push attempt): from any reachable state in which the main thread
has taken the lock in `enqueueTask(t)` and is about to compare
`taskQueue.size()` with `maxQueueSize`, and for any worker steps `ws`
interleaved before its next statement, the attempt succeeds (reaches the
`unlock(); break;` of lines 87-88) if and only if the size was below the
capacity at the comparison; on success the queue is the old queue with `t`
appended at the back, on failure the queue is unchanged and the main thread
is back at the `lock()` of the next attempt. -/
theorem push_attempt (num_threads maxQueueSize : Nat) (tasks : List Task) (sched : List Tid)
    (t : Task) (rest : List Task) (ws : List Nat)
    (hpc : (exec num_threads maxQueueSize tasks sched).main = MPc.enqCheck t rest) :
    ((run maxQueueSize (exec num_threads maxQueueSize tasks sched)
          (Tid.main :: (ws.map Tid.worker ++ [Tid.main]))).main = MPc.enqUnlockOk rest
        ↔ (exec num_threads maxQueueSize tasks sched).queue.length < maxQueueSize) ∧
    ((exec num_threads maxQueueSize tasks sched).queue.length < maxQueueSize →
        (run maxQueueSize (exec num_threads maxQueueSize tasks sched)
          (Tid.main :: (ws.map Tid.worker ++ [Tid.main]))).queue
          = (exec num_threads maxQueueSize tasks sched).queue ++ [t]) ∧
    (¬ (exec num_threads maxQueueSize tasks sched).queue.length < maxQueueSize →
        (run maxQueueSize (exec num_threads maxQueueSize tasks sched)
          (Tid.main :: (ws.map Tid.worker ++ [Tid.main]))).queue
          = (exec num_threads maxQueueSize tasks sched).queue ∧
        (run maxQueueSize (exec num_threads maxQueueSize tasks sched)
          (Tid.main :: (ws.map Tid.worker ++ [Tid.main]))).main = MPc.enqLock t rest) := by
  have hinv := inv_exec num_threads maxQueueSize tasks sched
  generalize exec num_threads maxQueueSize tasks sched = s at hpc hinv ⊢
  have hrun : run maxQueueSize s (Tid.main :: (ws.map Tid.worker ++ [Tid.main]))
      = step maxQueueSize (run maxQueueSize (step maxQueueSize s Tid.main) (ws.map Tid.worker))
          Tid.main := by
    simp only [run, run_append]
  rw [hrun]
  clear hrun
  have inv1 := inv_step maxQueueSize tasks.length s Tid.main hinv
  by_cases hlt : s.queue.length < maxQueueSize
  · have e1 : step maxQueueSize s Tid.main = { s with main := MPc.enqPush t rest } := by
      simp [step, stepMain, hpc, hlt]
    obtain ⟨hq, hm⟩ := run_workers_locked maxQueueSize tasks.length _ inv1
      (by rw [e1]; rfl) ws
    have q1 : (step maxQueueSize s Tid.main).queue = s.queue := by rw [e1]
    have m1 := congrArg State.main e1
    simp only at m1
    rw [q1] at hq
    rw [m1] at hm
    generalize run maxQueueSize (step maxQueueSize s Tid.main) (ws.map Tid.worker) = s2
      at hq hm ⊢
    have e2 : step maxQueueSize s2 Tid.main
        = { s2 with queue := s2.queue ++ [t], main := MPc.enqUnlockOk rest } := by
      simp [step, stepMain, hm]
    rw [e2]
    simp [hlt, hq]
  · have e1 : step maxQueueSize s Tid.main = { s with main := MPc.enqUnlockFull t rest } := by
      simp [step, stepMain, hpc, hlt]
    obtain ⟨hq, hm⟩ := run_workers_locked maxQueueSize tasks.length _ inv1
      (by rw [e1]; rfl) ws
    have q1 : (step maxQueueSize s Tid.main).queue = s.queue := by rw [e1]
    have m1 := congrArg State.main e1
    simp only at m1
    rw [q1] at hq
    rw [m1] at hm
    generalize run maxQueueSize (step maxQueueSize s Tid.main) (ws.map Tid.worker) = s2
      at hq hm ⊢
    have e2 : step maxQueueSize s2 Tid.main
        = { s2 with flag := false, main := MPc.enqLock t rest } := by
      simp [step, stepMain, hm]
    rw [e2]
    simp [hlt, hq]

/-- Witness for C2: one worker, capacity 1, one task.  After the main thread
has pushed the task and the worker has taken the lock, the pop section
(interleaved with two steps of the main thread) empties the queue and hands
the task to the worker; on the empty queue of the start the test removes
nothing. -/
theorem fifo_order_witness :
    ((exec 1 1 [⟨1, 0, 0⟩] (List.replicate 5 Tid.main ++ [Tid.worker 0])).workers[0]?
        = some WPc.test ∧
      (exec 1 1 [⟨1, 0, 0⟩] (List.replicate 5 Tid.main ++ [Tid.worker 0])).queue
        = [⟨1, 0, 0⟩]) ∧
    ((run 1 (exec 1 1 [⟨1, 0, 0⟩] (List.replicate 5 Tid.main ++ [Tid.worker 0]))
        (Tid.worker 0 :: ([Tid.main] ++ Tid.worker 0 :: ([Tid.main] ++ [Tid.worker 0])))).queue
        = [] ∧
      (run 1 (exec 1 1 [⟨1, 0, 0⟩] (List.replicate 5 Tid.main ++ [Tid.worker 0]))
        (Tid.worker 0 :: ([Tid.main] ++ Tid.worker 0 :: ([Tid.main] ++ [Tid.worker 0])))).workers[0]?
        = some (WPc.unlockTask ⟨1, 0, 0⟩)) ∧
    ((step 1 (exec 1 1 [⟨1, 0, 0⟩] [Tid.worker 0]) (Tid.worker 0)).queue = [] ∧
      (step 1 (exec 1 1 [⟨1, 0, 0⟩] [Tid.worker 0]) (Tid.worker 0)).workers[0]?
        = some WPc.unlockEmpty) :=
  ⟨⟨by decide, by decide⟩,
    (fifo_order 1 1 [⟨1, 0, 0⟩] (List.replicate 5 Tid.main ++ [Tid.worker 0])).1
      0 ⟨1, 0, 0⟩ [] [Tid.main] [Tid.main] (by decide) (by decide) (by decide) (by decide),
    (fifo_order 1 1 [⟨1, 0, 0⟩] [Tid.worker 0]).2.1 0 (by decide) (by decide)⟩

/-- Witness for C3: with capacity 1 and an empty queue the attempt succeeds
and appends the task, whatever the worker does in between. -/
theorem push_attempt_witness :
    (exec 1 1 [⟨1, 0, 0⟩] [Tid.main, Tid.main]).main = MPc.enqCheck ⟨1, 0, 0⟩ [] ∧
    (((run 1 (exec 1 1 [⟨1, 0, 0⟩] [Tid.main, Tid.main])
          (Tid.main :: ([0, 0].map Tid.worker ++ [Tid.main]))).main = MPc.enqUnlockOk []
        ↔ (exec 1 1 [⟨1, 0, 0⟩] [Tid.main, Tid.main]).queue.length < 1) ∧
    ((exec 1 1 [⟨1, 0, 0⟩] [Tid.main, Tid.main]).queue.length < 1 →
        (run 1 (exec 1 1 [⟨1, 0, 0⟩] [Tid.main, Tid.main])
          (Tid.main :: ([0, 0].map Tid.worker ++ [Tid.main]))).queue
          = (exec 1 1 [⟨1, 0, 0⟩] [Tid.main, Tid.main]).queue ++ [⟨1, 0, 0⟩]) ∧
    (¬ (exec 1 1 [⟨1, 0, 0⟩] [Tid.main, Tid.main]).queue.length < 1 →
        (run 1 (exec 1 1 [⟨1, 0, 0⟩] [Tid.main, Tid.main])
          (Tid.main :: ([0, 0].map Tid.worker ++ [Tid.main]))).queue
          = (exec 1 1 [⟨1, 0, 0⟩] [Tid.main, Tid.main]).queue ∧
        (run 1 (exec 1 1 [⟨1, 0, 0⟩] [Tid.main, Tid.main])
          (Tid.main :: ([0, 0].map Tid.worker ++ [Tid.main]))).main
          = MPc.enqLock ⟨1, 0, 0⟩ [])) :=
  ⟨by decide, push_attempt 1 1 [⟨1, 0, 0⟩] [Tid.main, Tid.main] ⟨1, 0, 0⟩ [] [0, 0] (by decide)⟩

/-- C10 (mutual exclusion): with `test_and_set` and `clear` as atomic steps,
in every reachable state at most one thread is between a return from
`queueMutex.lock()` and the matching `unlock()`, the flag is set while a
thread is there, every statement that reads or mutates `taskQueue`
(`empty`, `front`, `pop` in the worker, `size`, `push` in `enqueueTask`,
`size` in `generateFinalReport`) is executed by that thread, and any step
that changes the queue is a step of that thread. -/
theorem mutual_exclusion (num_threads maxQueueSize : Nat) (tasks : List Task)
    (sched : List Tid) :
    (∀ a b : Tid, holdsLock (exec num_threads maxQueueSize tasks sched) a = true →
        holdsLock (exec num_threads maxQueueSize tasks sched) b = true → a = b) ∧
    (∀ a : Tid, holdsLock (exec num_threads maxQueueSize tasks sched) a = true →
        (exec num_threads maxQueueSize tasks sched).flag = true) ∧
    (∀ a : Tid, touchesQueue (exec num_threads maxQueueSize tasks sched) a = true →
        holdsLock (exec num_threads maxQueueSize tasks sched) a = true) ∧
    (∀ a : Tid,
        (step maxQueueSize (exec num_threads maxQueueSize tasks sched) a).queue
          ≠ (exec num_threads maxQueueSize tasks sched).queue →
        holdsLock (exec num_threads maxQueueSize tasks sched) a = true) := by
  have hinv := inv_exec num_threads maxQueueSize tasks sched
  generalize exec num_threads maxQueueSize tasks sched = s at hinv ⊢
  have hw : ∀ i : Nat, holdsLock s (Tid.worker i) = true →
      ∃ pc, s.workers[i]? = some pc ∧ pc.inCS = true := by
    intro i h
    simp only [holdsLock] at h
    cases hpc : s.workers[i]? with
    | none => simp [hpc] at h
    | some pc => exact ⟨pc, rfl, by simpa [hpc] using h⟩
  refine ⟨?_, ?_, ?_, ?_⟩
  · intro a b ha hb
    cases a with
    | main =>
      cases b with
      | main => rfl
      | worker j =>
        obtain ⟨pc, hpc, hcs⟩ := hw j hb
        exact (mutex_main_worker s hinv.mutex j pc ha hpc hcs).elim
    | worker i =>
      obtain ⟨pci, hpci, hcsi⟩ := hw i ha
      cases b with
      | main => exact (mutex_main_worker s hinv.mutex i pci hb hpci hcsi).elim
      | worker j =>
        obtain ⟨pcj, hpcj, hcsj⟩ := hw j hb
        by_cases hij : i = j
        · rw [hij]
        · exact (mutex_two_workers s hinv.mutex i j pci pcj hij hpci hpcj hcsi hcsj).elim
  · intro a ha
    have hpos : 1 ≤ csCount s := by
      unfold csCount
      cases a with
      | main =>
        simp only [holdsLock] at ha
        rw [if_pos ha]
        omega
      | worker i =>
        obtain ⟨pc, hpc, hcs⟩ := hw i ha
        have := countP_pos_of_getElem? WPc.inCS s.workers i pc hpc hcs
        omega
    have hm := hinv.mutex
    unfold MutexInv at hm
    by_contra hf
    rw [if_neg hf] at hm
    omega
  · intro a ha
    cases a with
    | main =>
      simp only [touchesQueue, holdsLock] at ha ⊢
      cases hm : s.main <;> simp_all [MPc.touchesQueue, MPc.inCS]
    | worker i =>
      simp only [touchesQueue, holdsLock] at ha ⊢
      cases hpc : s.workers[i]? with
      | none => simp [hpc] at ha
      | some pc => cases pc <;> simp_all [WPc.touchesQueue, WPc.inCS]
  · intro a ha
    cases a with
    | main =>
      simp only [step] at ha
      rcases stepMain_queue maxQueueSize s with hq | ⟨t, rest, hm⟩
      · exact (ha hq).elim
      · simp [holdsLock, hm, MPc.inCS]
    | worker i =>
      simp only [step] at ha
      cases hpc : s.workers[i]? with
      | none => simp [hpc] at ha
      | some pc =>
        rw [hpc] at ha
        simp only at ha
        rcases stepWorker_queue s i pc with hq | ⟨t, hpop, _⟩
        · exact (ha hq).elim
        · simp [holdsLock, hpc, hpop, WPc.inCS]

/-- Witness for C10: after two steps the main thread holds the lock, the
flag is set, and the worker that also tried to lock is not inside. -/
theorem mutual_exclusion_witness :
    holdsLock (exec 1 1 [⟨1, 0, 0⟩] [Tid.main, Tid.main, Tid.worker 0]) Tid.main = true ∧
    (exec 1 1 [⟨1, 0, 0⟩] [Tid.main, Tid.main, Tid.worker 0]).flag = true :=
  ⟨by decide,
    (mutual_exclusion 1 1 [⟨1, 0, 0⟩] [Tid.main, Tid.main, Tid.worker 0]).2.1 Tid.main
      (by decide)⟩

/-- C4 as stated fails: one worker, capacity 1, one task.  The schedule below
is a clean run (the task is executed and the final report shows 1 processed,
0 remaining), yet in its initial state, and in the state after nine steps
where the worker has popped the task and not yet counted it,
`totalProcessedTasks + taskQueue.size()` is 0, not 1. -/
theorem conservation_counterexample :
    (exec 1 1 [⟨1, 0, 0⟩]
        (List.replicate 5 Tid.main ++ List.replicate 8 (Tid.worker 0) ++
          List.replicate 2 Tid.main ++ List.replicate 4 (Tid.worker 0) ++
          List.replicate 6 Tid.main)).log
      = [LogLine.executing 0 1, LogLine.completed 1, LogLine.finalReport 1 0] ∧
    (exec 1 1 [⟨1, 0, 0⟩] []).totalProcessedTasks + (exec 1 1 [⟨1, 0, 0⟩] []).queue.length
      ≠ [(⟨1, 0, 0⟩ : Task)].length ∧
    (exec 1 1 [⟨1, 0, 0⟩]
        (List.replicate 5 Tid.main ++ List.replicate 4 (Tid.worker 0))).totalProcessedTasks
      + (exec 1 1 [⟨1, 0, 0⟩]
        (List.replicate 5 Tid.main ++ List.replicate 4 (Tid.worker 0))).queue.length
      ≠ [(⟨1, 0, 0⟩ : Task)].length := by
  decide

/-- C4 amended (conservation): in every reachable state the tasks counted in
`totalProcessedTasks`, the tasks in `taskQueue`, the tasks a worker has
popped and not yet counted, and the tasks the feeding loop has not yet pushed
add up to the length `N` of the task list; so
`totalProcessedTasks + taskQueue.size() <= N` throughout. -/
theorem conservation (num_threads maxQueueSize : Nat) (tasks : List Task) (sched : List Tid) :
    (exec num_threads maxQueueSize tasks sched).totalProcessedTasks
        + (exec num_threads maxQueueSize tasks sched).queue.length
        + inFlight (exec num_threads maxQueueSize tasks sched)
        + (exec num_threads maxQueueSize tasks sched).main.pending = tasks.length ∧
    (exec num_threads maxQueueSize tasks sched).totalProcessedTasks
        + (exec num_threads maxQueueSize tasks sched).queue.length ≤ tasks.length := by
  have h := (inv_exec num_threads maxQueueSize tasks sched).cons
  unfold ConsInv at h
  exact ⟨h, by omega⟩

/-- C5 (conservation at shutdown): for every task list of length `N`, number
of workers, capacity and interleaving, (a) a final report is in the log only
once the destructor has finished, and then its "processed" figure is
`totalProcessedTasks`, its "remaining" figure is `taskQueue.size()`, and the
two add up to `N`; (b) the step of `generateFinalReport` that writes the
report appends exactly the line showing `totalProcessedTasks` and
`taskQueue.size()`; (c) once the destructor has joined all workers, every
worker has returned, none holds a popped task, `totalProcessedTasks +
taskQueue.size()` is `N`, and the number of pops equals
`totalProcessedTasks`, so every popped task has been counted exactly
once. -/
theorem shutdown_conservation (num_threads maxQueueSize : Nat) (tasks : List Task)
    (sched : List Tid) :
    (∀ p r : Nat, LogLine.finalReport p r ∈ (exec num_threads maxQueueSize tasks sched).log →
        (exec num_threads maxQueueSize tasks sched).main = MPc.done ∧
        p = (exec num_threads maxQueueSize tasks sched).totalProcessedTasks ∧
        r = (exec num_threads maxQueueSize tasks sched).queue.length ∧
        p + r = tasks.length) ∧
    (∀ r : Nat, (exec num_threads maxQueueSize tasks sched).main = MPc.repWrite r →
        (step maxQueueSize (exec num_threads maxQueueSize tasks sched) Tid.main).log
          = (exec num_threads maxQueueSize tasks sched).log ++
              [LogLine.finalReport
                (exec num_threads maxQueueSize tasks sched).totalProcessedTasks
                (exec num_threads maxQueueSize tasks sched).queue.length]) ∧
    ((exec num_threads maxQueueSize tasks sched).main.afterJoin = true →
        (∀ pc ∈ (exec num_threads maxQueueSize tasks sched).workers, pc = WPc.stopped) ∧
        inFlight (exec num_threads maxQueueSize tasks sched) = 0 ∧
        (exec num_threads maxQueueSize tasks sched).totalProcessedTasks
          + (exec num_threads maxQueueSize tasks sched).queue.length = tasks.length ∧
        (pops (trace maxQueueSize (init num_threads tasks) sched)).length
          = (exec num_threads maxQueueSize tasks sched).totalProcessedTasks) := by
  have hinv := inv_exec num_threads maxQueueSize tasks sched
  have hpops := pops_count_run maxQueueSize (init num_threads tasks) sched
  have hinit : (init num_threads tasks).totalProcessedTasks = 0 ∧
      inFlight (init num_threads tasks) = 0 := by
    simp [init, inFlight, List.countP_replicate, WPc.holding]
  rw [hinit.1, hinit.2] at hpops
  change _ = (exec num_threads maxQueueSize tasks sched).totalProcessedTasks
    + inFlight (exec num_threads maxQueueSize tasks sched) at hpops
  generalize exec num_threads maxQueueSize tasks sched = s at hinv hpops ⊢
  have hjoined : s.main.afterJoin = true →
      (∀ pc ∈ s.workers, pc = WPc.stopped) ∧ inFlight s = 0 ∧
        s.totalProcessedTasks + s.queue.length = tasks.length ∧
        (pops (trace maxQueueSize (init num_threads tasks) sched)).length
          = s.totalProcessedTasks := by
    intro haj
    have hall := hinv.join.2 haj
    have hfl := inFlight_eq_zero s hall
    have hc := hinv.cons
    unfold ConsInv at hc
    have hp : s.main.pending = 0 := by
      cases hm : s.main <;> simp_all [MPc.afterJoin, MPc.pending]
    exact ⟨hall, hfl, by omega, by omega⟩
  refine ⟨?_, ?_, hjoined⟩
  · intro p r hmem
    obtain ⟨hdone, hp, hr⟩ := hinv.report.2 p r hmem
    have hsum := (hjoined (by simp [hdone, MPc.afterJoin])).2.2.1
    exact ⟨hdone, hp, hr, by omega⟩
  · intro r hm
    have hr := hinv.report.1 r (Or.inr hm)
    simp only [step, stepMain, hm]
    rw [hr]

set_option maxRecDepth 100000 in
/-- Witness for C5: the run of Scenario A in which both workers return while
task 3 is still queued.  Its report "2 processed, 1 remaining" shows the
counter (2) and the queue size (1) of the final state, and adds up to 3. -/
theorem shutdown_conservation_witness :
    LogLine.finalReport 2 1 ∈
      (exec 2 5 [⟨1, 0, 100⟩, ⟨2, 0, 50⟩, ⟨3, 0, 10⟩]
        (List.replicate 10 Tid.main ++ List.replicate 8 (Tid.worker 0) ++
          List.replicate 8 (Tid.worker 1) ++ List.replicate 3 (Tid.worker 0) ++
          List.replicate 3 (Tid.worker 1) ++ List.replicate 7 Tid.main ++
          [Tid.worker 0, Tid.worker 1] ++ List.replicate 7 Tid.main)).log ∧
    ((exec 2 5 [⟨1, 0, 100⟩, ⟨2, 0, 50⟩, ⟨3, 0, 10⟩]
        (List.replicate 10 Tid.main ++ List.replicate 8 (Tid.worker 0) ++
          List.replicate 8 (Tid.worker 1) ++ List.replicate 3 (Tid.worker 0) ++
          List.replicate 3 (Tid.worker 1) ++ List.replicate 7 Tid.main ++
          [Tid.worker 0, Tid.worker 1] ++ List.replicate 7 Tid.main)).main = MPc.done ∧
      2 = (exec 2 5 [⟨1, 0, 100⟩, ⟨2, 0, 50⟩, ⟨3, 0, 10⟩]
        (List.replicate 10 Tid.main ++ List.replicate 8 (Tid.worker 0) ++
          List.replicate 8 (Tid.worker 1) ++ List.replicate 3 (Tid.worker 0) ++
          List.replicate 3 (Tid.worker 1) ++ List.replicate 7 Tid.main ++
          [Tid.worker 0, Tid.worker 1] ++ List.replicate 7 Tid.main)).totalProcessedTasks ∧
      1 = (exec 2 5 [⟨1, 0, 100⟩, ⟨2, 0, 50⟩, ⟨3, 0, 10⟩]
        (List.replicate 10 Tid.main ++ List.replicate 8 (Tid.worker 0) ++
          List.replicate 8 (Tid.worker 1) ++ List.replicate 3 (Tid.worker 0) ++
          List.replicate 3 (Tid.worker 1) ++ List.replicate 7 Tid.main ++
          [Tid.worker 0, Tid.worker 1] ++ List.replicate 7 Tid.main)).queue.length ∧
      2 + 1 = [(⟨1, 0, 100⟩ : Task), ⟨2, 0, 50⟩, ⟨3, 0, 10⟩].length) :=
  ⟨by decide,
    (shutdown_conservation 2 5 [⟨1, 0, 100⟩, ⟨2, 0, 50⟩, ⟨3, 0, 10⟩]
        (List.replicate 10 Tid.main ++ List.replicate 8 (Tid.worker 0) ++
          List.replicate 8 (Tid.worker 1) ++ List.replicate 3 (Tid.worker 0) ++
          List.replicate 3 (Tid.worker 1) ++ List.replicate 7 Tid.main ++
          [Tid.worker 0, Tid.worker 1] ++ List.replicate 7 Tid.main)).1 2 1 (by decide)⟩

/-- C6 fails on the code: one worker, capacity 1, one task.  The worker
finds the queue empty and releases the lock (lines 60-64); the main thread
then pushes the task, leaves the loop and sets `stop`; the worker now reads
`stop` at line 65 and returns while the task is still in the queue. -/
theorem worker_stops_with_task_queued :
    (exec 1 1 [⟨1, 0, 0⟩]
        (List.replicate 3 (Tid.worker 0) ++ List.replicate 7 Tid.main)).workers
      = [WPc.readStop] ∧
    (exec 1 1 [⟨1, 0, 0⟩]
        (List.replicate 3 (Tid.worker 0) ++ List.replicate 7 Tid.main)).queue
      = [⟨1, 0, 0⟩] ∧
    (step 1 (exec 1 1 [⟨1, 0, 0⟩]
        (List.replicate 3 (Tid.worker 0) ++ List.replicate 7 Tid.main)) (Tid.worker 0)).workers
      = [WPc.stopped] ∧
    (step 1 (exec 1 1 [⟨1, 0, 0⟩]
        (List.replicate 3 (Tid.worker 0) ++ List.replicate 7 Tid.main)) (Tid.worker 0)).queue
      = [⟨1, 0, 0⟩] := by
  decide

set_option maxRecDepth 100000 in
/-- C7 fails on the code, on Scenario A itself (2 workers, capacity 5, tasks
(1,0,100), (2,0,50), (3,0,10)): both workers execute a task each, find the
queue empty and release the lock; the main thread pushes the third task and
sets `stop`; both workers return; the run reaches the final report, which
shows 2 processed and 1 remaining. -/
theorem scenarioA_report_two_and_one :
    (exec 2 5 [⟨1, 0, 100⟩, ⟨2, 0, 50⟩, ⟨3, 0, 10⟩]
        (List.replicate 10 Tid.main ++ List.replicate 8 (Tid.worker 0) ++
          List.replicate 8 (Tid.worker 1) ++ List.replicate 3 (Tid.worker 0) ++
          List.replicate 3 (Tid.worker 1) ++ List.replicate 7 Tid.main ++
          [Tid.worker 0, Tid.worker 1] ++ List.replicate 7 Tid.main)).log
      = [LogLine.executing 0 1, LogLine.completed 1, LogLine.executing 1 2,
          LogLine.completed 2, LogLine.finalReport 2 1] ∧
    (exec 2 5 [⟨1, 0, 100⟩, ⟨2, 0, 50⟩, ⟨3, 0, 10⟩]
        (List.replicate 10 Tid.main ++ List.replicate 8 (Tid.worker 0) ++
          List.replicate 8 (Tid.worker 1) ++ List.replicate 3 (Tid.worker 0) ++
          List.replicate 3 (Tid.worker 1) ++ List.replicate 7 Tid.main ++
          [Tid.worker 0, Tid.worker 1] ++ List.replicate 7 Tid.main)).main = MPc.done := by
  decide

/-- C8 fails on the code for the task file: with one argument and a readable
config.txt, a task file that cannot be opened makes `simulateExecution`
return at line 146 and `main` return 0; only the log file that cannot be
opened (the task file being open) ends the process with status 1. -/
theorem status_zero_when_task_file_missing :
    mainStatus 2 { config := some (2, 5), taskFile := none, logOpens := true }
        (fun _ => ⟨0, 0, 0⟩) = 0 ∧
    mainStatus 2 { config := some (2, 5), taskFile := none, logOpens := false }
        (fun _ => ⟨0, 0, 0⟩) = 0 ∧
    mainStatus 2 { config := some (2, 5), taskFile := some [], logOpens := false }
        (fun _ => ⟨0, 0, 0⟩) = 1 := by
  decide

/-! ## Reading the task file -/

theorem readTasksFrom_length (junk : Nat → Task) (k : Nat) (lines : List (List Char)) :
    (readTasksFrom junk k lines).length = lines.length := by
  induction lines generalizing k with
  | nil => rfl
  | cons line lines ih => simp [readTasksFrom, ih]

theorem readTasksFrom_getElem? (junk : Nat → Task) (k i : Nat) (lines : List (List Char))
    (line : List Char) (h : lines[i]? = some line) :
    (readTasksFrom junk k lines)[i]? = some (parseLine (junk (k + i)) line).1 := by
  induction lines generalizing k i with
  | nil => simp at h
  | cons l lines ih =>
    cases i with
    | zero =>
      simp at h
      simp [readTasksFrom, h]
    | succ i =>
      simp at h
      have := ih (k + 1) i h
      simp only [readTasksFrom, List.getElem?_cons_succ]
      rw [this, Nat.add_assoc, Nat.add_comm 1 i]

theorem digitChar_facts (d : Fin 10) :
    (digitChar d).toNat = 48 + d.val ∧ isDigit (digitChar d) = true ∧
      isSpace (digitChar d) = false := by
  revert d
  decide

theorem blank_facts (c : Char) (h : (decide (c = Char.ofNat 32) || decide (c = Char.ofNat 9)) = true) :
    isSpace c = true ∧ isDigit c = false := by
  simp only [Bool.or_eq_true, decide_eq_true_eq] at h
  rcases h with h | h <;> subst h <;> decide

theorem noDigitHead_blank (g rest : List Char) (hg : isBlankRun g = true) (hne : g ≠ []) :
    NoDigitHead (g ++ rest) := by
  cases g with
  | nil => exact absurd rfl hne
  | cons c g =>
    intro x hx
    simp only [List.cons_append, List.head?_cons, Option.mem_def, Option.some.injEq] at hx
    subst hx
    simp only [isBlankRun, List.all_cons, Bool.and_eq_true] at hg
    exact (blank_facts _ hg.1).2

theorem noDigitHead_trail (g : List Char) (hg : isBlankRun g = true) : NoDigitHead g := by
  cases g with
  | nil => intro x hx; simp at hx
  | cons c g =>
    have := noDigitHead_blank (c :: g) [] hg (by simp)
    simpa using this

theorem dropWhile_blank (g rest : List Char) (hg : isBlankRun g = true) :
    (g ++ rest).dropWhile isSpace = rest.dropWhile isSpace := by
  induction g with
  | nil => rfl
  | cons c g ih =>
    simp only [isBlankRun, List.all_cons, Bool.and_eq_true] at hg
    have hc := (blank_facts c hg.1).1
    simp only [List.cons_append, List.dropWhile_cons, hc, if_true]
    exact ih hg.2

theorem digitsValue_foldl (ds : List (Fin 10)) (acc : Nat) :
    (ds.map digitChar).foldl (fun acc c => 10 * acc + (c.toNat - 48)) acc
      = acc * 10 ^ ds.length + decimalValue ds := by
  induction ds generalizing acc with
  | nil => simp [decimalValue]
  | cons d ds ih =>
    simp only [List.map_cons, List.foldl_cons, ih, (digitChar_facts d).1, decimalValue,
      List.length_cons]
    have : 48 + d.val - 48 = d.val := by omega
    rw [this]
    ring

theorem digitsValue_digits (ds : List (Fin 10)) :
    digitsValue (ds.map digitChar) = decimalValue ds := by
  have := digitsValue_foldl ds 0
  simpa [digitsValue] using this

theorem takeWhile_digits (ds : List (Fin 10)) (rest : List Char) (h : NoDigitHead rest) :
    (ds.map digitChar ++ rest).takeWhile isDigit = ds.map digitChar ∧
      (ds.map digitChar ++ rest).dropWhile isDigit = rest := by
  induction ds with
  | nil =>
    cases rest with
    | nil => exact ⟨rfl, rfl⟩
    | cons c r =>
      have hc : isDigit c = false := h c (by simp)
      simp [List.takeWhile_cons, List.dropWhile_cons, hc]
  | cons d ds ih =>
    have hd := (digitChar_facts d).2.1
    simp only [List.map_cons, List.cons_append, List.takeWhile_cons, List.dropWhile_cons, hd,
      if_true]
    exact ⟨by rw [ih.1], ih.2⟩

/-- The extraction of line 157 reads a written integer that fits `int` and
stops right after its last digit. -/
theorem extractInt_specInt (n : SpecInt) (rest : List Char) (h : NoDigitHead rest)
    (hfit : n.fitsInt = true) : extractInt (n.text ++ rest) = Extract.ok n.value rest := by
  simp only [SpecInt.fitsInt, Bool.and_eq_true, decide_eq_true_eq] at hfit
  obtain ⟨hlo, hhi⟩ := hfit
  have htw := takeWhile_digits (n.first :: n.more) rest h
  have hdv := digitsValue_digits (n.first :: n.more)
  obtain ⟨hf1, hf2, hf3⟩ := digitChar_facts n.first
  have hne : ((n.first :: n.more).map digitChar).isEmpty = false := rfl
  cases hneg : n.neg with
  | true =>
    have hval : n.value = -(decimalValue (n.first :: n.more) : Int) := by
      simp [SpecInt.value, hneg]
    have hminus : (Char.ofNat 45).toNat = 45 ∧ isSpace (Char.ofNat 45) = false := by decide
    rw [hval] at hlo hhi
    unfold extractInt
    simp only [SpecInt.text, hneg, if_true, List.cons_append, List.nil_append,
      List.dropWhile_cons, hminus.2, Bool.false_eq_true, if_false, hminus.1, decide_True,
      Bool.true_or, htw.1, htw.2, hne, hdv, hval]
    rw [if_neg (by omega), if_neg (by omega)]
  | false =>
    have hval : n.value = (decimalValue (n.first :: n.more) : Int) := by
      simp [SpecInt.value, hneg]
    rw [hval] at hlo hhi
    have h45 : decide ((digitChar n.first).toNat = 45) = false := by
      rw [hf1]; simp; omega
    have h43 : decide ((digitChar n.first).toNat = 43) = false := by
      rw [hf1]; simp; omega
    have htw2 := htw
    simp only [List.map_cons, List.cons_append] at htw2
    unfold extractInt
    simp only [SpecInt.text, hneg, Bool.false_eq_true, if_false, List.nil_append, List.map_cons,
      List.cons_append, List.dropWhile_cons, hf3, h45, h43, Bool.or_self, htw2.1, htw2.2]
    have hdv2 := hdv
    simp only [List.map_cons] at hdv2
    simp only [List.isEmpty_cons, Bool.false_eq_true, if_false, hdv2, hval]
    rw [if_neg (by omega), if_neg (by omega)]

theorem extractInt_blank (g rest : List Char) (hg : isBlankRun g = true) :
    extractInt (g ++ rest) = extractInt (rest.dropWhile isSpace) := by
  unfold extractInt
  rw [dropWhile_blank g rest hg]
  have : (rest.dropWhile isSpace).dropWhile isSpace = rest.dropWhile isSpace := by
    induction rest with
    | nil => rfl
    | cons c r ih =>
      by_cases hc : isSpace c = true
      · simp only [List.dropWhile_cons, hc, if_true]
        exact ih
      · simp [List.dropWhile_cons, hc]
  rw [this]

theorem extractInt_blank_specInt (g : List Char) (n : SpecInt) (rest : List Char)
    (hg : isBlankRun g = true) (h : NoDigitHead rest) (hfit : n.fitsInt = true) :
    extractInt (g ++ (n.text ++ rest)) = Extract.ok n.value rest := by
  have h1 := extractInt_blank g (n.text ++ rest) hg
  have h2 := extractInt_blank [] (n.text ++ rest) rfl
  simp only [List.nil_append] at h2
  rw [h1, ← h2]
  exact extractInt_specInt n rest h hfit

/-- Lines 155-157 on the line of a well-formed record give the Task the
record describes, whatever the local `task` held before. -/
theorem parseLine_specRecord (junk : Task) (r : SpecRecord) (h : r.wellFormed = true) :
    parseLine junk r.text = (r.task, true) := by
  simp only [SpecRecord.wellFormed, Bool.and_eq_true, Bool.not_eq_true', List.isEmpty_eq_false]
    at h
  obtain ⟨⟨⟨⟨⟨⟨⟨⟨hl, hg1⟩, hn1⟩, hg2⟩, hn2⟩, htr⟩, hfa⟩, hfb⟩, hfc⟩ := h
  have e1 := extractInt_blank_specInt r.lead r.id
    (r.gap1 ++ (r.arrival_delay.text ++ (r.gap2 ++ (r.execution_duration.text ++ r.trail))))
    hl (noDigitHead_blank _ _ hg1 hn1) hfa
  have e2 := extractInt_blank_specInt r.gap1 r.arrival_delay
    (r.gap2 ++ (r.execution_duration.text ++ r.trail)) hg1 (noDigitHead_blank _ _ hg2 hn2) hfb
  have e3 := extractInt_blank_specInt r.gap2 r.execution_duration r.trail hg2
    (noDigitHead_trail _ htr) hfc
  unfold parseLine
  simp only [SpecRecord.text, e1, e2, e3, SpecRecord.task]

/-- C9 as stated fails: on the file with lines "1 0 100", "" and "2 0 50"
the empty line is not a record (a record has at least one digit), yet the
list built by `simulateExecution` has three tasks, whatever the uninitialised
local `task` holds: the second one is that unwritten local.  When the local
still holds the previous task, as on the usual compilers, the list is
(1,0,100), (1,0,100), (2,0,50); in no case is it the list (1,0,100),
(2,0,50) the claim requires. -/
theorem malformed_line_counterexample :
    (∀ r : SpecRecord, r.text ≠ "".toList) ∧
    (∀ junk : Nat → Task,
      (readTasks junk ["1 0 100".toList, "".toList, "2 0 50".toList]).length = 3 ∧
      (readTasks junk ["1 0 100".toList, "".toList, "2 0 50".toList])[1]? = some (junk 1)) ∧
    readTasks (fun _ => ⟨1, 0, 100⟩) ["1 0 100".toList, "".toList, "2 0 50".toList]
      = [⟨1, 0, 100⟩, ⟨1, 0, 100⟩, ⟨2, 0, 50⟩] ∧
    ¬ (∃ junk : Nat → Task,
      readTasks junk ["1 0 100".toList, "".toList, "2 0 50".toList]
        = [⟨1, 0, 100⟩, ⟨2, 0, 50⟩]) := by
  refine ⟨?_, ?_, by decide, ?_⟩
  · intro r h
    have hlen := congrArg List.length h
    simp [SpecRecord.text, SpecInt.text] at hlen
  · intro junk
    exact ⟨rfl, rfl⟩
  · rintro ⟨junk, h⟩
    have hlen := congrArg List.length h
    rw [readTasks, readTasksFrom_length] at hlen
    simp at hlen

/-- C9 amended: `simulateExecution` rejects no line.  Every line of the task
file, well-formed or not, contributes exactly one Task, at the position of
the line; a line that holds a well-formed record (three integers that fit
`int`, separated by blanks or tabs) contributes the Task with the three
values the record denotes. -/
theorem every_line_contributes (junk : Nat → Task) (lines : List (List Char)) :
    (readTasks junk lines).length = lines.length ∧
    (∀ (k : Nat) (line : List Char), lines[k]? = some line →
        (readTasks junk lines)[k]? = some (parseLine (junk k) line).1) ∧
    (∀ (k : Nat) (r : SpecRecord), r.wellFormed = true → lines[k]? = some r.text →
        (readTasks junk lines)[k]? = some r.task) := by
  have hidx : ∀ (k : Nat) (line : List Char), lines[k]? = some line →
      (readTasks junk lines)[k]? = some (parseLine (junk k) line).1 := by
    intro k line h
    have := readTasksFrom_getElem? junk 0 k lines line h
    simpa [readTasks] using this
  refine ⟨readTasksFrom_length junk 0 lines, hidx, ?_⟩
  intro k r hwf h
  rw [hidx k r.text h, parseLine_specRecord (junk k) r hwf]

/-- Witness for C9 amended: in the three-line file above the third line is
the record 2, blank, 0, blank, 50, and the first could as well be written
" -12", tab, "7  100 ": each contributes the Task the record denotes. -/
theorem every_line_contributes_witness :
    ((⟨[], ⟨false, 2, []⟩, [Char.ofNat 32], ⟨false, 0, []⟩, [Char.ofNat 32],
          ⟨false, 5, [0]⟩, []⟩ : SpecRecord).wellFormed = true ∧
      ["1 0 100".toList, "".toList, "2 0 50".toList][2]?
        = some (⟨[], ⟨false, 2, []⟩, [Char.ofNat 32], ⟨false, 0, []⟩, [Char.ofNat 32],
          ⟨false, 5, [0]⟩, []⟩ : SpecRecord).text ∧
      (readTasks (fun _ => ⟨7, 8, 9⟩) ["1 0 100".toList, "".toList, "2 0 50".toList])[2]?
        = some ⟨2, 0, 50⟩) ∧
    ((⟨[Char.ofNat 32], ⟨true, 1, [2]⟩, [Char.ofNat 9], ⟨false, 7, []⟩,
          [Char.ofNat 32, Char.ofNat 32], ⟨false, 1, [0, 0]⟩, [Char.ofNat 32]⟩
          : SpecRecord).text = [' ', '-', '1', '2', Char.ofNat 9, '7', ' ', ' ', '1', '0', '0', ' '] ∧
      (readTasks (fun _ => ⟨7, 8, 9⟩)
          [[' ', '-', '1', '2', Char.ofNat 9, '7', ' ', ' ', '1', '0', '0', ' ']])[0]?
        = some ⟨-12, 7, 100⟩) :=
  ⟨⟨by decide, by decide,
      (every_line_contributes (fun _ => ⟨7, 8, 9⟩)
        ["1 0 100".toList, "".toList, "2 0 50".toList]).2.2 2
        ⟨[], ⟨false, 2, []⟩, [Char.ofNat 32], ⟨false, 0, []⟩, [Char.ofNat 32],
          ⟨false, 5, [0]⟩, []⟩ (by decide) (by decide)⟩,
    by decide,
    (every_line_contributes (fun _ => ⟨7, 8, 9⟩)
        [[' ', '-', '1', '2', Char.ofNat 9, '7', ' ', ' ', '1', '0', '0', ' ']]).2.2 0
        ⟨[Char.ofNat 32], ⟨true, 1, [2]⟩, [Char.ofNat 9], ⟨false, 7, []⟩,
          [Char.ofNat 32, Char.ofNat 32], ⟨false, 1, [0, 0]⟩, [Char.ofNat 32]⟩
        (by decide) (by decide)⟩

end ThreadPool
